import Mathlib

/-!
# CTC decoder utilities (`native_client/ctcdecode/decoder_utils.cpp`)

A shallow embedding of the decoder utilities and the properties proved about
them.

Modelling conventions.

* A finite `double` is the rational number it stands for (`ℚ`), compared
  exactly.  The addition of two `double`s rounds: the loop of
  `get_pruned_log_probs` takes it as the parameter `fadd`, and `double_add`
  is the IEEE 754 one (round to nearest, ties to even).  Probabilities are
  finite numbers; a NaN among them is undefined input for `std::sort`.
* A `float` score is a `FloatValue`: a finite number, an infinity or NaN, with
  the IEEE 754 comparisons `==` and `>` (both false on NaN).
* `log` followed by the narrowing to `float` is one function parameter `logf`;
  the constant `NUM_FLT_MIN` of the header is a parameter too.
* The array `prob_step` together with its length `class_dim` is a list.
* `std::sort` is a function parameter constrained by `IsStdSort`: it returns a
  rearrangement of its input in which no later element goes before an earlier
  one.  Nothing is assumed on the order among equal probabilities.
* Indices and counters (`size_t`, and the `int` index of a pair) are `Nat`;
  alphabet sizes are far below the range of `int`.
* A `std::string` is the list of its bytes.
* A call that can go wrong returns `Except Fault _` (or `Option _` for a thrown
  `std::out_of_range`).
* `unsigned int` is `Fin 2^32`; the conversions between `int` and
  `unsigned int` are explicit (`unsigned_of_int`, `label_of_unsigned`).
* The OpenFst automaton is a list of states (final weight, arcs) with a start
  state id, `-1` when there is none; state ids are `Int`.
* The loop `while (true)` of `split_str` is run with a fuel of iterations;
  `none` means that the loop has not left within the fuel.
  `std::string::find` follows the C++ standard, `none` being `npos`.
-/

namespace CtcDecode

/-! ## Pruning of one step of probabilities -/

/-- An entry `<id, prob>` of `prob_idx`. -/
abbrev ProbIdx := Nat × ℚ

/-- Modelled from the spec: `pair_comp_second_rev` lives in `decoder_utils.h`;
the spec sorts "by probability descending", so the first pair goes before the
second when its probability is the larger one. -/
def pair_comp_second_rev (a b : ProbIdx) : Bool := decide (a.2 > b.2)

/-- The contract of `std::sort(first, last, comp)` for a comparator `comp`:
the result is a rearrangement of the input, and no element goes (by `comp`)
before an element placed ahead of it. -/
def IsStdSort (comp : ProbIdx → ProbIdx → Bool)
    (sort : List ProbIdx → List ProbIdx) : Prop :=
  ∀ l, (sort l).Perm l ∧ (sort l).Pairwise (fun a b => comp b a = false)

/-- The first loop: `prob_idx.push_back(pair(i, prob_step[i]))` for
`i = 0 .. class_dim - 1`. -/
def make_prob_idx (prob_step : List ℚ) : List ProbIdx := prob_step.enum

/-- The mass-accumulation loop over the sorted `prob_idx`, started with the
current `cum_prob` and `cutoff_len`; returns the final `cutoff_len`.  `fadd` is
the addition of two `double`s, `cum_prob += prob_idx[i].second`. -/
def cutoff_loop (fadd : ℚ → ℚ → ℚ) (cutoff_prob : ℚ) (cutoff_top_n : Nat) :
    List ProbIdx → ℚ → Nat → Nat
  | [], _, cutoff_len => cutoff_len
  | p :: rest, cum_prob, cutoff_len =>
    let cum_prob := fadd cum_prob p.2
    let cutoff_len := cutoff_len + 1
    if cum_prob ≥ cutoff_prob ∨ cutoff_len ≥ cutoff_top_n then cutoff_len
    else cutoff_loop fadd cutoff_prob cutoff_top_n rest cum_prob cutoff_len

/-- The pruning part of `get_pruned_log_probs`: the pair of the final
`prob_idx` and the final `cutoff_len`. -/
def prune_prob_idx (sort : List ProbIdx → List ProbIdx) (fadd : ℚ → ℚ → ℚ)
    (prob_step : List ℚ) (cutoff_prob : ℚ) (cutoff_top_n : Nat) :
    List ProbIdx × Nat :=
  let class_dim := prob_step.length
  let prob_idx := make_prob_idx prob_step
  let cutoff_len := class_dim
  if cutoff_prob < 1 ∨ cutoff_top_n < cutoff_len then
    let prob_idx := sort prob_idx
    let cutoff_len :=
      if cutoff_prob < 1 then cutoff_loop fadd cutoff_prob cutoff_top_n prob_idx 0 0
      else cutoff_len
    (prob_idx.take cutoff_len, cutoff_len)
  else
    (prob_idx, cutoff_len)

/-- The last loop: entries `0 .. cutoff_len - 1` of `prob_idx`, each with the
logarithm of its floored probability. -/
def to_log_prob_idx {F : Type} (logf : ℚ → F) (NUM_FLT_MIN : ℚ)
    (prob_idx : List ProbIdx) (cutoff_len : Nat) : List (Nat × F) :=
  (prob_idx.take cutoff_len).map (fun p => (p.1, logf (p.2 + NUM_FLT_MIN)))

/-- `get_pruned_log_probs(prob_step, class_dim, cutoff_prob, cutoff_top_n)`. -/
def get_pruned_log_probs {F : Type} (sort : List ProbIdx → List ProbIdx)
    (fadd : ℚ → ℚ → ℚ) (logf : ℚ → F) (NUM_FLT_MIN : ℚ)
    (prob_step : List ℚ) (cutoff_prob : ℚ) (cutoff_top_n : Nat) : List (Nat × F) :=
  let pr := prune_prob_idx sort fadd prob_step cutoff_prob cutoff_top_n
  to_log_prob_idx logf NUM_FLT_MIN pr.1 pr.2

/-- A concrete `std::sort`: insertion sort by descending probability. -/
def insertion_sort_desc (l : List ProbIdx) : List ProbIdx :=
  l.insertionSort (fun a b => a.2 ≥ b.2)

/-- The sum of the `k` largest entries of a probability vector. -/
def sum_k_largest (probs : List ℚ) (k : Nat) : ℚ :=
  ((probs.insertionSort (fun a b => a ≥ b)).take k).sum

/-- The sum of the `k` largest entries of a probability vector as the loop
accumulates it: starting from 0, the entries are added one by one, largest
first, with the addition `fadd` of two `double`s. -/
def accumulated_k_largest (fadd : ℚ → ℚ → ℚ) (probs : List ℚ) (k : Nat) : ℚ :=
  ((probs.insertionSort (fun a b => a ≥ b)).take k).foldl fadd 0

/-- The quotient `n / d` rounded to the nearest natural number, a tie going to
the even one. -/
def div_round_half_even (n d : Nat) : Nat :=
  let a := n / d
  let r := n % d
  if 2 * r < d then a else if d < 2 * r then a + 1 else if a % 2 = 0 then a else a + 1

/-- The number of halvings that bring `n` below 2 (the position of its leading
bit), within `fuel` steps. -/
def log2_floor : Nat → Nat → Nat
  | 0, _ => 0
  | fuel + 1, n => if 2 ≤ n then log2_floor fuel (n / 2) + 1 else 0

/-- The `double` nearest to the number `q` (IEEE 754 binary64, round to
nearest, ties to even): 53 significant bits, the exponent not below `-1022`
(subnormal numbers); overflow to infinity is not represented. -/
def round_to_double (q : ℚ) : ℚ :=
  if q = 0 then 0 else
    let n := q.num.natAbs
    let d := q.den
    let k0 : Int := (log2_floor n n : Int) - (log2_floor d d : Int)
    let e : Int :=
      if (d : Int) * 2 ^ k0.toNat ≤ (n : Int) * 2 ^ (-k0).toNat then k0 else k0 - 1
    let s : Int := 52 - max e (-1022)
    let m : Nat := div_round_half_even (n * 2 ^ s.toNat) (d * 2 ^ (-s).toNat)
    let v : ℚ :=
      if 0 ≤ s then (m : ℚ) / (2 ^ s.toNat : Nat) else (m : ℚ) * (2 ^ (-s).toNat : Nat)
    if 0 ≤ q then v else -v

/-- The addition of two `double`s: the exact sum, rounded. -/
def double_add (a b : ℚ) : ℚ := round_to_double (a + b)

/-- The stopping test of the loop after `j` more elements of `l`. -/
def loop_stops (fadd : ℚ → ℚ → ℚ) (cutoff_prob : ℚ) (cutoff_top_n : Nat)
    (l : List ProbIdx) (cum_prob : ℚ) (cutoff_len : Nat) (j : Nat) : Prop :=
  cutoff_prob ≤ ((l.take j).map Prod.snd).foldl fadd cum_prob
    ∨ cutoff_top_n ≤ cutoff_len + j

/-! ## Ordering of beam hypotheses -/

/-- A value of the type `float`: not-a-number, an infinity, or a finite number
(every finite `float` is a rational number; the two zeros compare equal and are
one value here). -/
inductive FloatValue where
  | nan
  | neg_inf
  | finite (q : ℚ)
  | pos_inf
  deriving DecidableEq

/-- The comparison `a == b` of two `float`s (IEEE 754): false as soon as one of
them is not a number. -/
def FloatValue.eq : FloatValue → FloatValue → Bool
  | .nan, _ => false
  | _, .nan => false
  | .neg_inf, .neg_inf => true
  | .pos_inf, .pos_inf => true
  | .finite a, .finite b => decide (a = b)
  | _, _ => false

/-- The comparison `a > b` of two `float`s (IEEE 754): false as soon as one of
them is not a number. -/
def FloatValue.gt : FloatValue → FloatValue → Bool
  | .nan, _ => false
  | _, .nan => false
  | .neg_inf, _ => false
  | .finite _, .neg_inf => true
  | .finite a, .finite b => decide (a > b)
  | .finite _, .pos_inf => false
  | .pos_inf, .pos_inf => false
  | .pos_inf, _ => true

/-- Modelled from the spec: the hypothesis node `PathTrie` is declared in
`path_trie.h`; the comparators read two fields, `character` (the symbol index
that reached the node) and `score` (a float ranking value).  `addr` is the
identity of the node, the comparators receive nodes by pointer. -/
structure PathTrie where
  addr : Nat
  character : Int
  score : FloatValue
  deriving DecidableEq

/-- `prefix_compare(x, y)`: whether `x` goes before `y`. -/
def prefix_compare (x y : PathTrie) : Bool :=
  if x.score.eq y.score then
    if x.character = y.character then
      false
    else
      decide (x.character < y.character)
  else
    x.score.gt y.score

/-- The map `std::unordered_map<const PathTrie*, float>`: a partial function on
nodes. -/
abbrev ScoreMap := PathTrie → Option FloatValue

/-- `prefix_compare_external(x, y, scores)`; `none` stands for the
`std::out_of_range` that `scores.at` throws on a node absent from the map. -/
def prefix_compare_external (x y : PathTrie) (scores : ScoreMap) : Option Bool :=
  match scores x, scores y with
  | some sx, some sy =>
    if sx.eq sy then
      if x.character = y.character then
        some false
      else
        some (decide (x.character < y.character))
    else
      some (sx.gt sy)
  | _, _ => none

/-- A list of nodes is sorted under `prefix_compare` when no node goes before
its predecessor (what `std::is_sorted` checks). -/
def sorted_by_prefix_compare (l : List PathTrie) : Prop :=
  l.Chain' (fun a b => prefix_compare b a = false)

/-- The nodes of a list have pairwise distinct `(score, character)` pairs
(scores compared with `==`). -/
def distinct_score_character (l : List PathTrie) : Prop :=
  l.Pairwise (fun a b => ¬ (a.score.eq b.score = true ∧ a.character = b.character))

/-- The place of a `float` that is a number on the extended line (`nan` is
given the place of minus infinity; it is only used for numbers). -/
def FloatValue.rank : FloatValue → WithBot (WithTop ℚ)
  | .nan => ⊥
  | .neg_inf => ⊥
  | .finite q => ((q : WithTop ℚ) : WithBot (WithTop ℚ))
  | .pos_inf => ((⊤ : WithTop ℚ) : WithBot (WithTop ℚ))

/-- The sort key that `prefix_compare` compares on nodes whose score is a
number: score descending, then character ascending. -/
def prefix_key (x : PathTrie) : Lex ((WithBot (WithTop ℚ))ᵒᵈ × Int) :=
  toLex (OrderDual.toDual x.score.rank, x.character)

/-! ## Text units -/

/-- A `std::string`: its bytes, each a number in `0..255`. -/
abbrev Str := List Nat

/-- Modelled from the spec: `byte_is_codepoint_boundary` lives in
`decoder_utils.h`; a byte begins a new codepoint when its top two bits are not
`10`. -/
def byte_is_codepoint_boundary (c : Nat) : Bool := (c &&& 0xC0) != 0x80

/-- The loop of `split_into_codepoints`, with the current `result` and
`out_str`; after the last byte `out_str` is pushed. -/
def split_into_codepoints_loop : List Nat → List Str → Str → List Str
  | [], result, out_str => result ++ [out_str]
  | c :: rest, result, out_str =>
    if byte_is_codepoint_boundary c then
      if out_str ≠ [] then
        split_into_codepoints_loop rest (result ++ [out_str]) ([] ++ [c])
      else
        split_into_codepoints_loop rest result (out_str ++ [c])
    else
      split_into_codepoints_loop rest result (out_str ++ [c])

/-- `split_into_codepoints(str)`. -/
def split_into_codepoints (str : Str) : List Str :=
  split_into_codepoints_loop str [] []

/-- `split_into_bytes(str)`: one one-byte string per byte. -/
def split_into_bytes (str : Str) : List Str :=
  str.map (fun c => [c])

/-! ## Lexicon automaton -/

/-- How a call can go wrong: a failed `assert`, or undefined behaviour (the
read of an uninitialised variable, an operation on a state id that is not a
state of the automaton). -/
inductive Fault where
  | assertion_failed
  | undefined_behaviour
  deriving DecidableEq, Repr

/-- Modelled from the spec: `fst::StdArc::Weight` is the tropical weight of the
OpenFst library (not under src); `infinity` is `Weight::Zero()`, the weight of a
state that is not final, and `value 0` is `Weight::One()`, the neutral weight. -/
inductive TropicalWeight where
  | infinity
  | value (w : ℚ)
  deriving DecidableEq

/-- `Weight::One()`. -/
def TropicalWeight.One : TropicalWeight := TropicalWeight.value 0

/-- An `unsigned int`. -/
abbrev UnsignedInt := Fin 4294967296

/-- The conversion of an `int` to `unsigned int` (modulo `2^32`). -/
def unsigned_of_int (i : Int) : UnsignedInt :=
  ⟨(i % 4294967296).toNat, by omega⟩

/-- The conversion of an `unsigned int` to the `int` of an arc label (the same
32 bits). -/
def label_of_unsigned (c : UnsignedInt) : Int :=
  if c.val < 2147483648 then (c.val : Int) else (c.val : Int) - 4294967296

/-- Modelled from the spec: `fst::StdArc` of the OpenFst library (not under
src): input symbol, output symbol, weight, destination state. -/
structure Arc where
  ilabel : Int
  olabel : Int
  weight : TropicalWeight
  nextstate : Int
  deriving DecidableEq

/-- A state of the automaton: its final weight and its outgoing arcs. -/
structure FstState where
  final : TropicalWeight
  arcs : List Arc
  deriving DecidableEq

/-- Modelled from the spec: `fst::StdVectorFst` of the OpenFst library (not
under src): the states, with ids `0 .. NumStates()-1`, and the start state,
`-1` (`kNoStateId`) in an automaton that has none. -/
structure StdVectorFst where
  start : Int
  states : List FstState
  deriving DecidableEq

/-- The automaton with no states. -/
def StdVectorFst.empty : StdVectorFst := ⟨-1, []⟩

/-- `NumStates()`. -/
def StdVectorFst.NumStates (d : StdVectorFst) : Nat := d.states.length

/-- `Start()`. -/
def StdVectorFst.Start (d : StdVectorFst) : Int := d.start

/-- `SetStart(s)`. -/
def StdVectorFst.SetStart (d : StdVectorFst) (s : Int) : StdVectorFst :=
  { d with start := s }

/-- `AddState()`: appends a state without arcs that is not final, and returns
its id, the former number of states. -/
def StdVectorFst.AddState (d : StdVectorFst) : StdVectorFst × Int :=
  ({ d with states := d.states ++ [⟨TropicalWeight.infinity, []⟩] }, (d.states.length : Int))

/-- The state with id `s`, when `s` is a state of the automaton. -/
def StdVectorFst.state? (d : StdVectorFst) (s : Int) : Option FstState :=
  if 0 ≤ s then d.states[s.toNat]? else none

/-- `AddArc(s, arc)`: appends `arc` to the arcs of state `s`; undefined on an
id that is not a state. -/
def StdVectorFst.AddArc (d : StdVectorFst) (s : Int) (arc : Arc) :
    Except Fault StdVectorFst :=
  match d.state? s with
  | some st =>
    .ok { d with states := d.states.set s.toNat { st with arcs := st.arcs ++ [arc] } }
  | none => .error Fault.undefined_behaviour

/-- `SetFinal(s, weight)`: sets the final weight of state `s`; undefined on an
id that is not a state. -/
def StdVectorFst.SetFinal (d : StdVectorFst) (s : Int) (w : TropicalWeight) :
    Except Fault StdVectorFst :=
  match d.state? s with
  | some st => .ok { d with states := d.states.set s.toNat { st with final := w } }
  | none => .error Fault.undefined_behaviour

/-- The loop `for (auto c : word)` of `add_word_to_fst`, with the current
automaton, `src` and `dst` (`none`: not yet assigned); returns the final
automaton and `dst`. -/
def add_word_to_fst_loop :
    List UnsignedInt → StdVectorFst → Int → Option Int →
      Except Fault (StdVectorFst × Option Int)
  | [], dictionary, _, dst => .ok (dictionary, dst)
  | c :: rest, dictionary, src, _ =>
    let (dictionary, dst) := dictionary.AddState
    match dictionary.AddArc src
        ⟨label_of_unsigned c, label_of_unsigned c, TropicalWeight.value 0, dst⟩ with
    | .error e => .error e
    | .ok dictionary => add_word_to_fst_loop rest dictionary dst (some dst)

/-- The first statement of `add_word_to_fst`: an automaton without states gets
its start state. -/
def add_word_to_fst_init (dictionary : StdVectorFst) : Except Fault StdVectorFst :=
  if dictionary.NumStates = 0 then
    let (dictionary, start) := dictionary.AddState
    if start = 0 then .ok (dictionary.SetStart start)
    else .error Fault.assertion_failed
  else
    .ok dictionary

/-- `add_word_to_fst(word, dictionary)`: the automaton after the call, or how
the call went wrong. -/
def add_word_to_fst (word : List UnsignedInt) (dictionary : StdVectorFst) :
    Except Fault StdVectorFst :=
  match add_word_to_fst_init dictionary with
  | .error e => .error e
  | .ok dictionary =>
    match add_word_to_fst_loop word dictionary dictionary.Start none with
    | .error e => .error e
    | .ok (_, none) => .error Fault.undefined_behaviour
    | .ok (dictionary, some dst) => dictionary.SetFinal dst TropicalWeight.One

/-- The map `std::unordered_map<std::string, int>`: a partial function on
strings (`none`: `find` returns `end()`). -/
abbrev CharMap := Str → Option Int

/-- The loop `for (auto &c : characters)` of `add_word_to_dictionary`, with the
current `int_word`; `none` when a character is not in `char_map`. -/
def add_word_to_dictionary_loop (char_map : CharMap) :
    List Str → List UnsignedInt → Option (List UnsignedInt)
  | [], int_word => some int_word
  | c :: rest, int_word =>
    match char_map c with
    | some int_c =>
      add_word_to_dictionary_loop char_map rest (int_word ++ [unsigned_of_int int_c])
    | none => none

/-- `add_word_to_dictionary(word, char_map, utf8, SPACE_ID, dictionary)`: the
returned flag and the automaton after the call, or how the call went wrong. -/
def add_word_to_dictionary (word : Str) (char_map : CharMap) (utf8 : Bool)
    (SPACE_ID : Int) (dictionary : StdVectorFst) : Except Fault (Bool × StdVectorFst) :=
  let characters := if utf8 then split_into_bytes word else split_into_codepoints word
  match add_word_to_dictionary_loop char_map characters [] with
  | none => .ok (false, dictionary)
  | some int_word =>
    let int_word := if !utf8 then int_word ++ [unsigned_of_int SPACE_ID] else int_word
    match add_word_to_fst int_word dictionary with
    | .error e => .error e
    | .ok dictionary => .ok (true, dictionary)

/-- Insertion of a list of words, one `add_word_to_fst` call after another. -/
def add_words_to_fst : List (List UnsignedInt) → StdVectorFst → Except Fault StdVectorFst
  | [], dictionary => .ok dictionary
  | word :: rest, dictionary =>
    match add_word_to_fst word dictionary with
    | .error e => .error e
    | .ok dictionary => add_words_to_fst rest dictionary

/-- The arcs that leave state `s` (none when `s` is not a state). -/
def StdVectorFst.arcs_of (d : StdVectorFst) (s : Int) : List Arc :=
  match d.state? s with
  | some st => st.arcs
  | none => []

/-- Whether `s` is a final state: a state whose final weight is not
`Weight::Zero()`. -/
def StdVectorFst.is_final (d : StdVectorFst) (s : Int) : Bool :=
  match d.state? s with
  | some st => decide (st.final ≠ TropicalWeight.infinity)
  | none => false

/-- The state reached from `s` along the arcs of `path`, each of which has to
leave the state reached so far; `none` when `path` is not a path from `s`. -/
def StdVectorFst.path_end (d : StdVectorFst) : Int → List Arc → Option Int
  | s, [] => some s
  | s, a :: path => if a ∈ d.arcs_of s then d.path_end a.nextstate path else none

/-- Whether `path` leads from `s` to a final state. -/
def StdVectorFst.accepting_from (d : StdVectorFst) (s : Int) (path : List Arc) : Bool :=
  match d.path_end s path with
  | some t => d.is_final t
  | none => false

/-- Whether `path` is a path from the start state to a final state whose input
labels spell `labels`. -/
def StdVectorFst.accepting_path (d : StdVectorFst) (path : List Arc) (labels : List Int) :
    Bool :=
  d.accepting_from d.start path && decide (path.map Arc.ilabel = labels)

/-- The automaton accepts the token sequence `word`: some path from the start
state to a final state has input labels that spell it. -/
def StdVectorFst.accepts (d : StdVectorFst) (word : List UnsignedInt) : Prop :=
  ∃ path, d.accepting_path path (word.map label_of_unsigned) = true

/-! ### The shape of an inserted word -/

/-- The arc that `add_word_to_fst` adds for the token `c`, towards `dst`. -/
def word_arc (c : UnsignedInt) (dst : Nat) : Arc :=
  ⟨label_of_unsigned c, label_of_unsigned c, TropicalWeight.value 0, (dst : Int)⟩

/-- The states created for the tokens that follow the first one, before the
last state is made final; `m` is the id of the state created next. -/
def open_chain (m : Nat) : List UnsignedInt → List FstState
  | [] => [⟨TropicalWeight.infinity, []⟩]
  | c :: cs => ⟨TropicalWeight.infinity, [word_arc c m]⟩ :: open_chain (m + 1) cs

/-- The states of `open_chain`, the last one final. -/
def final_chain (m : Nat) : List UnsignedInt → List FstState
  | [] => [⟨TropicalWeight.One, []⟩]
  | c :: cs => ⟨TropicalWeight.infinity, [word_arc c m]⟩ :: final_chain (m + 1) cs

/-- The arcs created for a word, in order; `m` is the id of the first new
state. -/
def chain_path (m : Nat) : List UnsignedInt → List Arc
  | [] => []
  | c :: cs => word_arc c m :: chain_path (m + 1) cs

/-- An automaton built by insertions: its start state is state 0 and every arc
leads to a state other than the start state. -/
def IsLexicon (d : StdVectorFst) : Prop :=
  d.start = 0 ∧ d.states ≠ [] ∧
    ∀ st ∈ d.states, ∀ a ∈ st.arcs, 1 ≤ a.nextstate ∧ a.nextstate < d.states.length

/-- The automaton after the insertion of the word `c :: cs` into `d`. -/
def inserted (d : StdVectorFst) (c : UnsignedInt) (cs : List UnsignedInt) : StdVectorFst :=
  ⟨d.start,
    d.states.set 0
      { final := (d.states.headD ⟨TropicalWeight.infinity, []⟩).final,
        arcs := (d.states.headD ⟨TropicalWeight.infinity, []⟩).arcs
          ++ [word_arc c d.states.length] }
    ++ final_chain (d.states.length + 1) cs⟩

/-- The automaton `d` holds the words `ws`: it is the automaton without states
or one built by insertions, and its paths from the start state to a final state
are pairwise distinct and spell, one by one, the words of `ws`. -/
def HoldsWords (d : StdVectorFst) (ws : List (List UnsignedInt)) : Prop :=
  (d = StdVectorFst.empty ∨ IsLexicon d) ∧
    ∃ paths : List (List Arc), paths.Nodup ∧
      (∀ p, d.accepting_from d.start p = true ↔ p ∈ paths) ∧
      paths.map (List.map Arc.ilabel) = ws.map (List.map label_of_unsigned)

/-- The number of times the word `v` occurs in the list of inserted words. -/
def times_inserted (v : List UnsignedInt) (ws : List (List UnsignedInt)) : Nat :=
  (ws.filter (fun w => decide (w = v))).length

/-! ## Text units, continued -/

/-- `get_utf8_str_len(str)`: the loop adds `(c & 0xc0) != 0x80`, as 0 or 1, for
each byte. -/
def get_utf8_str_len (str : Str) : Nat :=
  str.foldl (fun str_len c => str_len + (if (c &&& 0xc0) != 0x80 then 1 else 0)) 0

/-- The search of `std::string::find` through the suffix `t` of the text that
begins at position `pos`: the first position at which `delim` occurs. -/
def find_in_suffix (delim : Str) : Str → Nat → Option Nat
  | [], pos => if delim = [] then some pos else none
  | c :: rest, pos =>
    if delim <+: c :: rest then some pos else find_in_suffix delim rest (pos + 1)

/-- `s.find(delim, start)` of the C++ standard library: the lowest position
`pos ≥ start` at which `delim` occurs in `s`; `none` stands for
`std::string::npos`, also returned when `start` is beyond the end of `s`. -/
def string_find (s delim : Str) (start : Nat) : Option Nat :=
  if start ≤ s.length then find_in_suffix delim (s.drop start) start else none

/-- The loop `while (true)` of `split_str`, run for at most `fuel` iterations
from the current `start` and `result`; `none` when the loop has not left after
`fuel` iterations. -/
def split_str_loop (s delim : Str) : Nat → Nat → List Str → Option (List Str)
  | 0, _, _ => none
  | fuel + 1, start, result =>
    match string_find s delim start with
    | none =>
      if start < s.length then some (result ++ [s.drop start]) else some result
    | some end_ =>
      let result :=
        if end_ > start then result ++ [(s.drop start).take (end_ - start)] else result
      split_str_loop s delim fuel (end_ + delim.length) result

/-- `split_str(s, delim)`, with the loop run for at most `fuel` iterations. -/
def split_str (fuel : Nat) (s delim : Str) : Option (List Str) :=
  split_str_loop s delim fuel 0 []

/-- The position `start` of `split_str` at the beginning of iteration `i`
(`none` once the loop has left). -/
def split_str_start (s delim : Str) : Nat → Option Nat
  | 0 => some 0
  | i + 1 =>
    match split_str_start s delim i with
    | none => none
    | some start =>
      match string_find s delim start with
      | none => none
      | some end_ => some (end_ + delim.length)

/-- The segments between the leftmost non-overlapping occurrences of `delim`,
read off byte by byte: `skip` bytes of an occurrence are still to be passed,
`cur` is the segment read so far. -/
def cut_at_delimiter (delim : Str) : Str → Nat → Str → List Str
  | [], _, cur => [cur]
  | _ :: rest, skip + 1, cur => cut_at_delimiter delim rest skip cur
  | c :: rest, 0, cur =>
    if delim <+: c :: rest then cur :: cut_at_delimiter delim rest (delim.length - 1) []
    else cut_at_delimiter delim rest 0 (cur ++ [c])

/-- "Split and remove empty tokens": the non-empty segments, in order. -/
def split_and_remove_empty (s delim : Str) : List Str :=
  (cut_at_delimiter delim s 0 []).filter (fun seg => decide (seg ≠ []))

/-! ## Lexicon automaton, continued -/

/-- The symbol indices that `char_map` gives to the characters, in order, as
the `unsigned int` values pushed on `int_word`. -/
def mapped_tokens (char_map : CharMap) (characters : List Str) : List UnsignedInt :=
  characters.filterMap (fun c => (char_map c).map unsigned_of_int)

/-- The token sequence of a word: the mapped tokens of its bytes in byte mode,
the mapped tokens of its codepoints followed by `SPACE_ID` otherwise. -/
def word_tokens (word : Str) (char_map : CharMap) (utf8 : Bool) (SPACE_ID : Int) :
    List UnsignedInt :=
  if utf8 then mapped_tokens char_map (split_into_bytes word)
  else mapped_tokens char_map (split_into_codepoints word) ++ [unsigned_of_int SPACE_ID]

/-- A character map for byte mode in examples: each one-byte string has its
byte as symbol index. -/
def byte_char_map : CharMap
  | [b] => some (b : Int)
  | _ => none

/-- An element that is one codepoint: one byte that begins a codepoint,
followed only by continuation bytes. -/
def is_codepoint_unit (e : Str) : Prop :=
  ∃ b t, e = b :: t ∧ byte_is_codepoint_boundary b = true ∧
    ∀ x ∈ t, byte_is_codepoint_boundary x = false

/-- What one call of `add_word_to_fst` on the word `w` does to the automaton
`d`, giving `d'`, with `n` the number of states of `d`:
the start state is kept; there are `w.length` more states; the states `1..n-1`
are as they were; the start state has its final weight and its arcs as they
were, and one more arc, to the new state `n`, with the first token on both
labels and weight zero; the new state `n + i` that is not the last one is not
final and has one arc, to state `n + i + 1`, with token `i + 1` on both labels
and weight zero; the last new state is final with weight `One` and has no
arc. -/
def appends_chain (d : StdVectorFst) (w : List UnsignedInt) (d' : StdVectorFst) : Prop :=
  d'.start = d.start ∧
  d'.states.length = d.states.length + w.length ∧
  (∀ s, 1 ≤ s → s < d.states.length → d'.states[s]? = d.states[s]?) ∧
  (∃ st0 c, d.states[0]? = some st0 ∧ w[0]? = some c ∧
    d'.states[0]? = some ⟨st0.final, st0.arcs ++
      [⟨label_of_unsigned c, label_of_unsigned c, TropicalWeight.value 0,
        (d.states.length : Int)⟩]⟩) ∧
  (∀ i c, i + 1 < w.length → w[i + 1]? = some c →
    d'.states[d.states.length + i]? = some ⟨TropicalWeight.infinity,
      [⟨label_of_unsigned c, label_of_unsigned c, TropicalWeight.value 0,
        ((d.states.length + i + 1 : Nat) : Int)⟩]⟩) ∧
  d'.states[d.states.length + w.length - 1]? = some ⟨TropicalWeight.One, []⟩

/-- The new chain shares no state but the start state with the paths there
were: every arc of a path of `d` from its start state leads to a state of `d`,
every arc of the chain of `w` leads to a new state, and the chain is a path of
`d'` from the start state to a final state that spells `w`. -/
def chain_apart (d : StdVectorFst) (w : List UnsignedInt) (d' : StdVectorFst) : Prop :=
  (∀ p t, d.path_end d.start p = some t →
    ∀ a ∈ p, 1 ≤ a.nextstate ∧ a.nextstate < d.states.length) ∧
  (∀ b ∈ chain_path d.states.length w, (d.states.length : Int) ≤ b.nextstate) ∧
  d'.accepting_path (chain_path d.states.length w) (w.map label_of_unsigned) = true

/-! # Theorems -/

/-! ### Facts about the sort and the loop -/

theorem insertion_sort_desc_isStdSort :
    IsStdSort pair_comp_second_rev insertion_sort_desc := by
  intro l
  haveI : IsTotal ProbIdx (fun a b => a.2 ≥ b.2) := ⟨fun a b => le_total b.2 a.2⟩
  haveI : IsTrans ProbIdx (fun a b => a.2 ≥ b.2) := ⟨fun _ _ _ h₁ h₂ => le_trans h₂ h₁⟩
  refine ⟨List.perm_insertionSort _ l, ?_⟩
  have hs := List.sorted_insertionSort (fun a b : ProbIdx => a.2 ≥ b.2) l
  refine List.Pairwise.imp ?_ hs
  intro a b hab
  simp only [pair_comp_second_rev, decide_eq_false_iff_not, gt_iff_lt, not_lt]
  exact hab

/-- A sorted `prob_idx` lists its probabilities in non-increasing order. -/
theorem IsStdSort.pairwise_ge {sort : List ProbIdx → List ProbIdx}
    (hs : IsStdSort pair_comp_second_rev sort) (l : List ProbIdx) :
    (sort l).Pairwise (fun a b => b.2 ≤ a.2) := by
  refine List.Pairwise.imp ?_ (hs l).2
  intro a b hab
  simpa [pair_comp_second_rev] using hab

/-- The probabilities of the sorted `prob_idx` are the descending sort of the
probability vector, whatever the sort does with ties. -/
theorem IsStdSort.map_snd {sort : List ProbIdx → List ProbIdx}
    (hs : IsStdSort pair_comp_second_rev sort) (probs : List ℚ) :
    (sort (make_prob_idx probs)).map Prod.snd
      = probs.insertionSort (fun a b => a ≥ b) := by
  haveI : IsTotal ℚ (fun a b => a ≥ b) := ⟨fun a b => le_total b a⟩
  haveI : IsTrans ℚ (fun a b => a ≥ b) := ⟨fun _ _ _ h₁ h₂ => le_trans h₂ h₁⟩
  haveI : IsAntisymm ℚ (fun a b => a ≥ b) := ⟨fun _ _ h₁ h₂ => le_antisymm h₂ h₁⟩
  apply List.eq_of_perm_of_sorted (r := fun a b : ℚ => a ≥ b)
  · have h1 : ((sort (make_prob_idx probs)).map Prod.snd).Perm
        ((make_prob_idx probs).map Prod.snd) := (hs _).1.map _
    rw [make_prob_idx, List.enum_map_snd] at h1
    exact h1.trans (List.perm_insertionSort _ probs).symm
  · exact (List.pairwise_map.mpr (hs.pairwise_ge _))
  · exact List.sorted_insertionSort _ probs

/-- What the loop computes: it consumes `k` elements, where `k` is the first
count (from 1) at which the stopping test holds, and the whole list when the
test never holds. -/
theorem cutoff_loop_spec (fadd : ℚ → ℚ → ℚ) (c : ℚ) (t : Nat) :
    ∀ (l : List ProbIdx) (cum : ℚ) (len : Nat),
      ∃ k, cutoff_loop fadd c t l cum len = len + k ∧ k ≤ l.length ∧
        (∀ j, 1 ≤ j → j < k → ¬ loop_stops fadd c t l cum len j) ∧
        ((1 ≤ k ∧ loop_stops fadd c t l cum len k) ∨
          (k = l.length ∧ ∀ j, 1 ≤ j → j ≤ l.length → ¬ loop_stops fadd c t l cum len j)) := by
  intro l
  induction l with
  | nil =>
    intro cum len
    refine ⟨0, by simp [cutoff_loop], le_refl _, ?_, Or.inr ⟨rfl, ?_⟩⟩
    · intro j h1 h2; omega
    · intro j h1 h2; simp at h2; omega
  | cons p rest ih =>
    intro cum len
    by_cases hc : fadd cum p.2 ≥ c ∨ len + 1 ≥ t
    · refine ⟨1, by simp [cutoff_loop, hc], by simp, ?_, Or.inl ⟨le_refl _, ?_⟩⟩
      · intro j h1 h2; omega
      · simpa [loop_stops] using hc
    · obtain ⟨k, hk, hkl, hmin, hend⟩ := ih (fadd cum p.2) (len + 1)
      have key : ∀ j, loop_stops fadd c t (p :: rest) cum len (j + 1)
          ↔ loop_stops fadd c t rest (fadd cum p.2) (len + 1) j := by
        intro j
        simp only [loop_stops, List.take_succ_cons, List.map_cons, List.foldl_cons]
        rw [Nat.add_assoc, Nat.add_comm 1 j]
      have h1 : ¬ loop_stops fadd c t (p :: rest) cum len 1 := by
        simpa [loop_stops] using hc
      refine ⟨k + 1, ?_, by simpa using hkl, ?_, ?_⟩
      · rw [cutoff_loop]; simp only [hc, if_false]; rw [hk]; omega
      · intro j hj1 hjk
        rcases Nat.lt_or_ge j 2 with h | h
        · have : j = 1 := by omega
          subst this; exact h1
        · obtain ⟨i, rfl⟩ : ∃ i, j = i + 1 := ⟨j - 1, by omega⟩
          rw [key]; exact hmin i (by omega) (by omega)
      · rcases hend with ⟨hk1, hst⟩ | ⟨hkeq, hno⟩
        · exact Or.inl ⟨by omega, (key k).mpr hst⟩
        · refine Or.inr ⟨by simp [hkeq], ?_⟩
          intro j hj1 hjl
          rcases Nat.lt_or_ge j 2 with h | h
          · have : j = 1 := by omega
            subst this; exact h1
          · obtain ⟨i, rfl⟩ : ∃ i, j = i + 1 := ⟨j - 1, by omega⟩
            rw [key]; exact hno i (by omega) (by simpa using hjl)

theorem cutoff_loop_le (fadd : ℚ → ℚ → ℚ) (c : ℚ) (t : Nat) (l : List ProbIdx) :
    cutoff_loop fadd c t l 0 0 ≤ l.length := by
  obtain ⟨k, hk, hkl, _⟩ := cutoff_loop_spec fadd c t l 0 0
  omega

/-- In the pruning branch with `cutoff_prob < 1` the result is the first
`cutoff_len` sorted entries, log-transformed. -/
theorem get_pruned_log_probs_lt_one {F : Type} (sort : List ProbIdx → List ProbIdx)
    (fadd : ℚ → ℚ → ℚ) (logf : ℚ → F) (m : ℚ) (probs : List ℚ) (c : ℚ) (t : Nat) (hc : c < 1) :
    get_pruned_log_probs sort fadd logf m probs c t
      = ((sort (make_prob_idx probs)).take
          (cutoff_loop fadd c t (sort (make_prob_idx probs)) 0 0)).map
          (fun p => (p.1, logf (p.2 + m))) := by
  simp [get_pruned_log_probs, prune_prob_idx, to_log_prob_idx, hc]

/-- In the pruning branch with `cutoff_prob ≥ 1` the result is the whole sorted
list, log-transformed. -/
theorem get_pruned_log_probs_top_n_only {F : Type} (sort : List ProbIdx → List ProbIdx)
    (hs : IsStdSort pair_comp_second_rev sort)
    (fadd : ℚ → ℚ → ℚ) (logf : ℚ → F) (m : ℚ) (probs : List ℚ) (c : ℚ) (t : Nat) (hc : ¬ c < 1)
    (ht : t < probs.length) :
    get_pruned_log_probs sort fadd logf m probs c t
      = (sort (make_prob_idx probs)).map (fun p => (p.1, logf (p.2 + m))) := by
  have hlen : (sort (make_prob_idx probs)).length = probs.length := by
    rw [(hs _).1.length_eq, make_prob_idx, List.enum_length]
  simp only [get_pruned_log_probs, prune_prob_idx, to_log_prob_idx, hc, ht, false_or,
    if_true, if_false]
  rw [List.take_of_length_le (le_of_eq hlen), List.take_of_length_le (le_of_eq hlen)]

/-- In either pruning branch the result is a prefix of the sorted list. -/
theorem get_pruned_log_probs_prefix {F : Type} (sort : List ProbIdx → List ProbIdx)
    (hs : IsStdSort pair_comp_second_rev sort)
    (fadd : ℚ → ℚ → ℚ) (logf : ℚ → F) (m : ℚ) (probs : List ℚ) (c : ℚ) (t : Nat)
    (h : c < 1 ∨ t < probs.length) :
    ∃ k, get_pruned_log_probs sort fadd logf m probs c t
      = ((sort (make_prob_idx probs)).take k).map (fun p => (p.1, logf (p.2 + m))) := by
  by_cases hc : c < 1
  · exact ⟨_, get_pruned_log_probs_lt_one sort fadd logf m probs c t hc⟩
  · have ht : t < probs.length := h.resolve_left hc
    refine ⟨(sort (make_prob_idx probs)).length, ?_⟩
    rw [get_pruned_log_probs_top_n_only sort hs fadd logf m probs c t hc ht, List.take_length]

/-- The stopping test on the sorted list is the test on the `k` largest
probabilities, accumulated largest first. -/
theorem loop_stops_sorted {sort : List ProbIdx → List ProbIdx}
    (hs : IsStdSort pair_comp_second_rev sort) (fadd : ℚ → ℚ → ℚ) (probs : List ℚ)
    (c : ℚ) (t j : Nat) :
    loop_stops fadd c t (sort (make_prob_idx probs)) 0 0 j
      ↔ (c ≤ accumulated_k_largest fadd probs j ∨ t ≤ j) := by
  simp only [loop_stops, accumulated_k_largest, zero_add, List.map_take, hs.map_snd probs]

/-- With the exact addition the accumulated sum is the sum. -/
theorem accumulated_k_largest_exact (probs : List ℚ) (k : Nat) :
    accumulated_k_largest (fun a b => a + b) probs k = sum_k_largest probs k := by
  have h : ∀ (l : List ℚ) (a : ℚ), l.foldl (fun a b => a + b) a = a + l.sum := by
    intro l
    induction l with
    | nil => intro a; simp
    | cons x l ih => intro a; rw [List.foldl_cons, ih, List.sum_cons, add_assoc]
  rw [accumulated_k_largest, sum_k_largest, h, zero_add]

/-- An entry of `prob_idx` carries the probability found at its index. -/
theorem getD_of_mem_make_prob_idx {probs : List ℚ} {p : ProbIdx}
    (hp : p ∈ make_prob_idx probs) : p.1 < probs.length ∧ probs.getD p.1 0 = p.2 := by
  have h1 := List.fst_lt_of_mem_enum hp
  have h2 := List.mem_enum_iff_getElem?.mp hp
  refine ⟨h1, ?_⟩
  simp [List.getD_eq_getElem?_getD, h2]

/-- Where the top-n count is applied: with `cutoff_prob < 1.0` and
`cutoff_top_n ≥ 1` at most `min(N, cutoff_top_n)` entries are returned. -/
theorem get_pruned_log_probs_length_le_top_n {F : Type}
    (sort : List ProbIdx → List ProbIdx) (hs : IsStdSort pair_comp_second_rev sort)
    (fadd : ℚ → ℚ → ℚ) (logf : ℚ → F) (m : ℚ) (probs : List ℚ) (c : ℚ) (t : Nat)
    (hc : c < 1) (ht : 1 ≤ t) :
    (get_pruned_log_probs sort fadd logf m probs c t).length ≤ min probs.length t := by
  have hlen : (sort (make_prob_idx probs)).length = probs.length := by
    rw [(hs _).1.length_eq, make_prob_idx, List.enum_length]
  obtain ⟨k, hk, hkl, hmin, _⟩ := cutoff_loop_spec fadd c t (sort (make_prob_idx probs)) 0 0
  rw [Nat.zero_add] at hk
  rw [get_pruned_log_probs_lt_one sort fadd logf m probs c t hc, List.length_map,
    List.length_take, hk, Nat.min_eq_left hkl]
  rw [hlen] at hkl
  refine Nat.le_min.mpr ⟨hkl, ?_⟩
  by_contra hlt
  exact hmin t ht (by omega) (Or.inr (by omega))

/-- C1: with `cutoff_prob = 1.0` the top-n count is never applied: on the
probabilities `[0.5, 0.3, 0.2]` with `cutoff_top_n = 1` the function returns all
three entries, more than `min(3, 1) = 1`. -/
theorem get_pruned_log_probs_top_n_not_applied {F : Type}
    (sort : List ProbIdx → List ProbIdx) (hs : IsStdSort pair_comp_second_rev sort)
    (fadd : ℚ → ℚ → ℚ) (logf : ℚ → F) (NUM_FLT_MIN : ℚ) :
    (get_pruned_log_probs sort fadd logf NUM_FLT_MIN [1/2, 3/10, 1/5] 1 1).length = 3
      ∧ ¬ (3 ≤ min 3 1) := by
  rw [get_pruned_log_probs_top_n_only sort hs fadd logf NUM_FLT_MIN _ 1 1 (by norm_num)
    (by simp)]
  rw [List.length_map, (hs _).1.length_eq]
  simp [make_prob_idx]

theorem get_pruned_log_probs_top_n_not_applied_witness :
    IsStdSort pair_comp_second_rev insertion_sort_desc ∧
    (get_pruned_log_probs insertion_sort_desc double_add (fun q => q) 0 [1/2, 3/10, 1/5] 1 1).length = 3
      ∧ ¬ (3 ≤ min 3 1) :=
  ⟨insertion_sort_desc_isStdSort,
    get_pruned_log_probs_top_n_not_applied insertion_sort_desc
      insertion_sort_desc_isStdSort double_add (fun q => q) 0⟩

/-- C2: with `cutoff_prob = 1.0` and `cutoff_top_n ≥ N` the function returns
exactly `N` entries, the indices being `0, 1, ..., N-1` in that order, entry `i`
carrying the logarithm of probability `i` plus `NUM_FLT_MIN` (for every
`std::sort`, which is not called). -/
theorem get_pruned_log_probs_no_pruning {F : Type}
    (sort : List ProbIdx → List ProbIdx) (fadd : ℚ → ℚ → ℚ) (logf : ℚ → F) (NUM_FLT_MIN : ℚ)
    (prob_step : List ℚ) (cutoff_top_n : Nat) (ht : prob_step.length ≤ cutoff_top_n) :
    (get_pruned_log_probs sort fadd logf NUM_FLT_MIN prob_step 1 cutoff_top_n).length
        = prob_step.length ∧
    (get_pruned_log_probs sort fadd logf NUM_FLT_MIN prob_step 1 cutoff_top_n).map Prod.fst
        = List.range prob_step.length ∧
    ∀ i (hi : i < prob_step.length),
      (get_pruned_log_probs sort fadd logf NUM_FLT_MIN prob_step 1 cutoff_top_n)[i]?
        = some (i, logf (prob_step[i] + NUM_FLT_MIN)) := by
  have hres : get_pruned_log_probs sort fadd logf NUM_FLT_MIN prob_step 1 cutoff_top_n
      = prob_step.enum.map (fun p => (p.1, logf (p.2 + NUM_FLT_MIN))) := by
    have h1 : ¬ cutoff_top_n < prob_step.length := by omega
    simp [get_pruned_log_probs, prune_prob_idx, to_log_prob_idx, make_prob_idx, h1,
      List.take_of_length_le]
  rw [hres]
  refine ⟨by simp, ?_, ?_⟩
  · rw [List.map_map]
    exact List.enum_map_fst prob_step
  · intro i hi
    simp [List.getElem?_map, List.getElem?_enum, List.getElem?_eq_getElem hi]

theorem get_pruned_log_probs_no_pruning_witness :
    ([1/5, 3/10, 1/2] : List ℚ).length ≤ 3 ∧
    (get_pruned_log_probs insertion_sort_desc double_add (fun q => q) 0 [1/5, 3/10, 1/2] 1 3).length
        = ([1/5, 3/10, 1/2] : List ℚ).length ∧
    (get_pruned_log_probs insertion_sort_desc double_add (fun q => q) 0 [1/5, 3/10, 1/2] 1 3).map Prod.fst
        = List.range ([1/5, 3/10, 1/2] : List ℚ).length ∧
    ∀ i (hi : i < ([1/5, 3/10, 1/2] : List ℚ).length),
      (get_pruned_log_probs insertion_sort_desc double_add (fun q => q) 0 [1/5, 3/10, 1/2] 1 3)[i]?
        = some (i, (fun q : ℚ => q) (([1/5, 3/10, 1/2] : List ℚ)[i] + 0)) :=
  ⟨by decide,
    get_pruned_log_probs_no_pruning insertion_sort_desc double_add (fun q => q) 0 [1/5, 3/10, 1/2] 3
      (by decide)⟩

/-- C3, as stated, fails: the loop adds `double`s, each sum rounded.  On the
`double`s nearest to 0.75, 0.15, 0.1 with `cutoff_prob` the `double` nearest to
0.9 (and `cutoff_top_n = 3`) the rounded sum of the first two entries is the
cutoff, so 2 entries are retained, while the exact sum of the two largest
entries is below the cutoff and the least `k` of the claim is 3. -/
theorem get_pruned_log_probs_rounded_sum :
    round_to_double (9/10) < 1 ∧
    (get_pruned_log_probs insertion_sort_desc double_add (fun q => q) 0
      [3/4, round_to_double (15/100), round_to_double (1/10)]
      (round_to_double (9/10)) 3).length = 2 ∧
    ¬ (round_to_double (9/10)
        ≤ sum_k_largest [3/4, round_to_double (15/100), round_to_double (1/10)] 1 ∨ 3 ≤ 1) ∧
    ¬ (round_to_double (9/10)
        ≤ sum_k_largest [3/4, round_to_double (15/100), round_to_double (1/10)] 2 ∨ 3 ≤ 2) ∧
    (round_to_double (9/10)
        ≤ sum_k_largest [3/4, round_to_double (15/100), round_to_double (1/10)] 3 ∨ 3 ≤ 3) := by
  decide!

/-- C3, amended: with `cutoff_prob < 1.0` the number of retained entries is the
least `k` in `1..N` at which the sum of the `k` largest probabilities, as
accumulated in `double` arithmetic (added one by one, largest first, each sum
rounded), reaches `cutoff_prob` or `k` reaches `cutoff_top_n`, and is `N` when
there is no such `k`; the retained entries are that prefix of the sorted list.
(It holds for every addition `fadd`, every `N`, every `cutoff_top_n` and every
sign of the entries.) -/
theorem get_pruned_log_probs_length_least {F : Type}
    (sort : List ProbIdx → List ProbIdx) (hs : IsStdSort pair_comp_second_rev sort)
    (fadd : ℚ → ℚ → ℚ) (logf : ℚ → F) (NUM_FLT_MIN : ℚ)
    (prob_step : List ℚ) (cutoff_prob : ℚ) (cutoff_top_n : Nat)
    (hc : cutoff_prob < 1) :
    ((∃ k, 1 ≤ k ∧ k ≤ prob_step.length ∧
        (cutoff_prob ≤ accumulated_k_largest fadd prob_step k ∨ cutoff_top_n ≤ k)) →
      1 ≤ (get_pruned_log_probs sort fadd logf NUM_FLT_MIN prob_step cutoff_prob cutoff_top_n).length ∧
      (get_pruned_log_probs sort fadd logf NUM_FLT_MIN prob_step cutoff_prob cutoff_top_n).length
        ≤ prob_step.length ∧
      (cutoff_prob ≤ accumulated_k_largest fadd prob_step
          (get_pruned_log_probs sort fadd logf NUM_FLT_MIN prob_step cutoff_prob cutoff_top_n).length
        ∨ cutoff_top_n ≤
          (get_pruned_log_probs sort fadd logf NUM_FLT_MIN prob_step cutoff_prob cutoff_top_n).length) ∧
      ∀ j, 1 ≤ j →
        j < (get_pruned_log_probs sort fadd logf NUM_FLT_MIN prob_step cutoff_prob cutoff_top_n).length →
        ¬ (cutoff_prob ≤ accumulated_k_largest fadd prob_step j ∨ cutoff_top_n ≤ j)) ∧
    ((¬ ∃ k, 1 ≤ k ∧ k ≤ prob_step.length ∧
        (cutoff_prob ≤ accumulated_k_largest fadd prob_step k ∨ cutoff_top_n ≤ k)) →
      (get_pruned_log_probs sort fadd logf NUM_FLT_MIN prob_step cutoff_prob cutoff_top_n).length
        = prob_step.length) ∧
    get_pruned_log_probs sort fadd logf NUM_FLT_MIN prob_step cutoff_prob cutoff_top_n
      = ((sort (make_prob_idx prob_step)).take
          (get_pruned_log_probs sort fadd logf NUM_FLT_MIN prob_step cutoff_prob cutoff_top_n).length).map
          (fun p => (p.1, logf (p.2 + NUM_FLT_MIN))) := by
  have hlen : (sort (make_prob_idx prob_step)).length = prob_step.length := by
    rw [(hs _).1.length_eq, make_prob_idx, List.enum_length]
  have hres := get_pruned_log_probs_lt_one sort fadd logf NUM_FLT_MIN prob_step cutoff_prob
    cutoff_top_n hc
  obtain ⟨k, hk, hkl, hmin, hend⟩ :=
    cutoff_loop_spec fadd cutoff_prob cutoff_top_n (sort (make_prob_idx prob_step)) 0 0
  rw [Nat.zero_add] at hk
  have hr : (get_pruned_log_probs sort fadd logf NUM_FLT_MIN prob_step cutoff_prob
      cutoff_top_n).length = k := by
    rw [hres, List.length_map, List.length_take, hk]
    exact Nat.min_eq_left hkl
  rw [hr]
  rw [hlen] at hkl hend
  simp only [loop_stops_sorted hs] at hmin hend
  refine ⟨?_, ?_, ?_⟩
  · rintro ⟨k', hk1, hk2, hk3⟩
    rcases hend with ⟨h1, h2⟩ | ⟨h1, h2⟩
    · exact ⟨h1, hkl, h2, hmin⟩
    · exact absurd hk3 (h2 k' hk1 hk2)
  · intro hno
    rcases hend with ⟨h1, h2⟩ | ⟨h1, h2⟩
    · exact absurd ⟨k, h1, hkl, h2⟩ hno
    · exact h1
  · rw [hres, hk]

theorem get_pruned_log_probs_length_least_witness :
    IsStdSort pair_comp_second_rev insertion_sort_desc ∧ ((7 : ℚ) / 10 < 1) ∧
    (((∃ k, 1 ≤ k ∧ k ≤ ([1/5, 3/10, 1/2] : List ℚ).length ∧
        ((7 : ℚ) / 10 ≤ accumulated_k_largest double_add [1/5, 3/10, 1/2] k ∨ 5 ≤ k)) →
      1 ≤ (get_pruned_log_probs insertion_sort_desc double_add (fun q => q) 0 [1/5, 3/10, 1/2] (7/10) 5).length ∧
      (get_pruned_log_probs insertion_sort_desc double_add (fun q => q) 0 [1/5, 3/10, 1/2] (7/10) 5).length
        ≤ ([1/5, 3/10, 1/2] : List ℚ).length ∧
      ((7 : ℚ) / 10 ≤ accumulated_k_largest double_add [1/5, 3/10, 1/2]
          (get_pruned_log_probs insertion_sort_desc double_add (fun q => q) 0 [1/5, 3/10, 1/2] (7/10) 5).length
        ∨ 5 ≤
          (get_pruned_log_probs insertion_sort_desc double_add (fun q => q) 0 [1/5, 3/10, 1/2] (7/10) 5).length) ∧
      ∀ j, 1 ≤ j →
        j < (get_pruned_log_probs insertion_sort_desc double_add (fun q => q) 0 [1/5, 3/10, 1/2] (7/10) 5).length →
        ¬ ((7 : ℚ) / 10 ≤ accumulated_k_largest double_add [1/5, 3/10, 1/2] j ∨ 5 ≤ j)) ∧
    ((¬ ∃ k, 1 ≤ k ∧ k ≤ ([1/5, 3/10, 1/2] : List ℚ).length ∧
        ((7 : ℚ) / 10 ≤ accumulated_k_largest double_add [1/5, 3/10, 1/2] k ∨ 5 ≤ k)) →
      (get_pruned_log_probs insertion_sort_desc double_add (fun q => q) 0 [1/5, 3/10, 1/2] (7/10) 5).length
        = ([1/5, 3/10, 1/2] : List ℚ).length) ∧
    get_pruned_log_probs insertion_sort_desc double_add (fun q => q) 0 [1/5, 3/10, 1/2] (7/10) 5
      = ((insertion_sort_desc (make_prob_idx [1/5, 3/10, 1/2])).take
          (get_pruned_log_probs insertion_sort_desc double_add (fun q => q) 0 [1/5, 3/10, 1/2] (7/10) 5).length).map
          (fun p => (p.1, (fun q : ℚ => q) (p.2 + 0)))) :=
  ⟨insertion_sort_desc_isStdSort, by norm_num,
    get_pruned_log_probs_length_least insertion_sort_desc insertion_sort_desc_isStdSort
      double_add (fun q => q) 0 [1/5, 3/10, 1/2] (7/10) 5 (by norm_num)⟩

/-- With an addition that does not round, the claim of C3 as it was stated:
the least `k` at which the exact sum of the `k` largest probabilities reaches
`cutoff_prob` or `k` reaches `cutoff_top_n`. -/
theorem get_pruned_log_probs_length_least_exact {F : Type}
    (sort : List ProbIdx → List ProbIdx) (hs : IsStdSort pair_comp_second_rev sort)
    (logf : ℚ → F) (m : ℚ) (probs : List ℚ) (c : ℚ) (t : Nat) (hc : c < 1) :
    ((∃ k, 1 ≤ k ∧ k ≤ probs.length ∧ (c ≤ sum_k_largest probs k ∨ t ≤ k)) →
      1 ≤ (get_pruned_log_probs sort (fun a b => a + b) logf m probs c t).length ∧
      (get_pruned_log_probs sort (fun a b => a + b) logf m probs c t).length
        ≤ probs.length ∧
      (c ≤ sum_k_largest probs
          (get_pruned_log_probs sort (fun a b => a + b) logf m probs c t).length
        ∨ t ≤ (get_pruned_log_probs sort (fun a b => a + b) logf m probs c t).length) ∧
      ∀ j, 1 ≤ j →
        j < (get_pruned_log_probs sort (fun a b => a + b) logf m probs c t).length →
        ¬ (c ≤ sum_k_largest probs j ∨ t ≤ j)) ∧
    ((¬ ∃ k, 1 ≤ k ∧ k ≤ probs.length ∧ (c ≤ sum_k_largest probs k ∨ t ≤ k)) →
      (get_pruned_log_probs sort (fun a b => a + b) logf m probs c t).length
        = probs.length) := by
  have hlen : (sort (make_prob_idx probs)).length = probs.length := by
    rw [(hs _).1.length_eq, make_prob_idx, List.enum_length]
  obtain ⟨k, hk, hkl, hmin, hend⟩ :=
    cutoff_loop_spec (fun a b => a + b) c t (sort (make_prob_idx probs)) 0 0
  rw [Nat.zero_add] at hk
  have hr : (get_pruned_log_probs sort (fun a b => a + b) logf m probs c t).length = k := by
    rw [get_pruned_log_probs_lt_one sort (fun a b => a + b) logf m probs c t hc,
      List.length_map, List.length_take, hk]
    exact Nat.min_eq_left hkl
  rw [hr]
  rw [hlen] at hkl hend
  simp only [loop_stops_sorted hs, accumulated_k_largest_exact] at hmin hend
  refine ⟨?_, ?_⟩
  · rintro ⟨k', hk1, hk2, hk3⟩
    rcases hend with ⟨h1, h2⟩ | ⟨h1, h2⟩
    · exact ⟨h1, hkl, h2, hmin⟩
    · exact absurd hk3 (h2 k' hk1 hk2)
  · intro hno
    rcases hend with ⟨h1, h2⟩ | ⟨h1, h2⟩
    · exact absurd ⟨k, h1, hkl, h2⟩ hno
    · exact h1

/-- C4: whenever `cutoff_prob < 1.0` or `cutoff_top_n < N`, the returned
entries are a prefix of a descending-by-probability sort of the pairs
`(i, probability i)`: the returned indices are pairwise distinct and below `N`,
the probabilities of returned entries are non-increasing along the list, and
every returned entry has a probability at least that of every index not
returned. -/
theorem get_pruned_log_probs_sorted_prefix {F : Type}
    (sort : List ProbIdx → List ProbIdx) (hs : IsStdSort pair_comp_second_rev sort)
    (fadd : ℚ → ℚ → ℚ) (logf : ℚ → F) (NUM_FLT_MIN : ℚ)
    (prob_step : List ℚ) (cutoff_prob : ℚ) (cutoff_top_n : Nat)
    (h : cutoff_prob < 1 ∨ cutoff_top_n < prob_step.length) :
    (∃ (s : List ProbIdx) (k : Nat), s.Perm (make_prob_idx prob_step) ∧ s.Pairwise (fun a b => b.2 ≤ a.2) ∧
      get_pruned_log_probs sort fadd logf NUM_FLT_MIN prob_step cutoff_prob cutoff_top_n
        = (s.take k).map (fun p => (p.1, logf (p.2 + NUM_FLT_MIN)))) ∧
    ((get_pruned_log_probs sort fadd logf NUM_FLT_MIN prob_step cutoff_prob cutoff_top_n).map
      Prod.fst).Nodup ∧
    (∀ i ∈ (get_pruned_log_probs sort fadd logf NUM_FLT_MIN prob_step cutoff_prob cutoff_top_n).map
      Prod.fst, i < prob_step.length) ∧
    ((get_pruned_log_probs sort fadd logf NUM_FLT_MIN prob_step cutoff_prob cutoff_top_n).map
      Prod.fst).Pairwise (fun i j => prob_step.getD j 0 ≤ prob_step.getD i 0) ∧
    (∀ i ∈ (get_pruned_log_probs sort fadd logf NUM_FLT_MIN prob_step cutoff_prob cutoff_top_n).map
      Prod.fst, ∀ j, j < prob_step.length →
        j ∉ (get_pruned_log_probs sort fadd logf NUM_FLT_MIN prob_step cutoff_prob cutoff_top_n).map
          Prod.fst →
        prob_step.getD j 0 ≤ prob_step.getD i 0) := by
  obtain ⟨k, hk⟩ := get_pruned_log_probs_prefix sort hs fadd logf NUM_FLT_MIN prob_step
    cutoff_prob cutoff_top_n h
  have hperm := (hs (make_prob_idx prob_step)).1
  have hsorted := hs.pairwise_ge (make_prob_idx prob_step)
  have hidx : (get_pruned_log_probs sort fadd logf NUM_FLT_MIN prob_step cutoff_prob
      cutoff_top_n).map Prod.fst = ((sort (make_prob_idx prob_step)).take k).map Prod.fst := by
    rw [hk, List.map_map]; rfl
  have hmem : ∀ p ∈ sort (make_prob_idx prob_step),
      p.1 < prob_step.length ∧ prob_step.getD p.1 0 = p.2 :=
    fun p hp => getD_of_mem_make_prob_idx (hperm.subset hp)
  have hnodup : ((sort (make_prob_idx prob_step)).map Prod.fst).Nodup := by
    have h1 : ((sort (make_prob_idx prob_step)).map Prod.fst).Perm
        ((make_prob_idx prob_step).map Prod.fst) := hperm.map _
    rw [h1.nodup_iff, make_prob_idx, List.enum_map_fst]
    exact List.nodup_range _
  have htake : ∀ p ∈ (sort (make_prob_idx prob_step)).take k,
      p ∈ sort (make_prob_idx prob_step) := fun p hp => List.mem_of_mem_take hp
  refine ⟨⟨_, k, hperm, hsorted, hk⟩, ?_, ?_, ?_, ?_⟩
  · rw [hidx, List.map_take]
    exact hnodup.sublist (List.take_sublist _ _)
  · intro i hi
    rw [hidx] at hi
    obtain ⟨p, hp, rfl⟩ := List.mem_map.mp hi
    exact (hmem p (htake p hp)).1
  · rw [hidx, List.pairwise_map]
    have h2 : ((sort (make_prob_idx prob_step)).take k).Pairwise (fun a b => b.2 ≤ a.2) :=
      hsorted.sublist (List.take_sublist _ _)
    refine List.Pairwise.imp_of_mem ?_ h2
    intro a b ha hb hab
    rw [(hmem a (htake a ha)).2, (hmem b (htake b hb)).2]
    exact hab
  · intro i hi j hj hnot
    rw [hidx] at hi hnot
    obtain ⟨p, hp, rfl⟩ := List.mem_map.mp hi
    have hjmem : (j, prob_step.getD j 0) ∈ sort (make_prob_idx prob_step) := by
      apply hperm.symm.subset
      rw [make_prob_idx, List.mk_mem_enum_iff_getElem?]
      simp [List.getD_eq_getElem?_getD, List.getElem?_eq_getElem hj]
    rw [← List.take_append_drop k (sort (make_prob_idx prob_step))] at hjmem hsorted
    rcases List.mem_append.mp hjmem with h1 | h1
    · exact absurd (List.mem_map.mpr ⟨_, h1, rfl⟩) hnot
    · have := (List.pairwise_append.mp hsorted).2.2 p hp _ h1
      rw [(hmem p (htake p hp)).2]
      exact this

theorem get_pruned_log_probs_sorted_prefix_witness :
    IsStdSort pair_comp_second_rev insertion_sort_desc ∧
    ((7 : ℚ) / 10 < 1 ∨ 5 < ([1/5, 3/10, 1/2] : List ℚ).length) ∧
    ((∃ (s : List ProbIdx) (k : Nat), s.Perm (make_prob_idx [1/5, 3/10, 1/2]) ∧ s.Pairwise (fun a b => b.2 ≤ a.2) ∧
      get_pruned_log_probs insertion_sort_desc double_add (fun q => q) 0 [1/5, 3/10, 1/2] (7/10) 5
        = (s.take k).map (fun p => (p.1, (fun q : ℚ => q) (p.2 + 0)))) ∧
    ((get_pruned_log_probs insertion_sort_desc double_add (fun q => q) 0 [1/5, 3/10, 1/2] (7/10) 5).map
      Prod.fst).Nodup ∧
    (∀ i ∈ (get_pruned_log_probs insertion_sort_desc double_add (fun q => q) 0 [1/5, 3/10, 1/2] (7/10) 5).map
      Prod.fst, i < ([1/5, 3/10, 1/2] : List ℚ).length) ∧
    ((get_pruned_log_probs insertion_sort_desc double_add (fun q => q) 0 [1/5, 3/10, 1/2] (7/10) 5).map
      Prod.fst).Pairwise
        (fun i j => ([1/5, 3/10, 1/2] : List ℚ).getD j 0 ≤ ([1/5, 3/10, 1/2] : List ℚ).getD i 0) ∧
    (∀ i ∈ (get_pruned_log_probs insertion_sort_desc double_add (fun q => q) 0 [1/5, 3/10, 1/2] (7/10) 5).map
      Prod.fst, ∀ j, j < ([1/5, 3/10, 1/2] : List ℚ).length →
        j ∉ (get_pruned_log_probs insertion_sort_desc double_add (fun q => q) 0 [1/5, 3/10, 1/2] (7/10) 5).map
          Prod.fst →
        ([1/5, 3/10, 1/2] : List ℚ).getD j 0 ≤ ([1/5, 3/10, 1/2] : List ℚ).getD i 0)) :=
  ⟨insertion_sort_desc_isStdSort, Or.inl (by norm_num),
    get_pruned_log_probs_sorted_prefix insertion_sort_desc insertion_sort_desc_isStdSort
      double_add (fun q => q) 0 [1/5, 3/10, 1/2] (7/10) 5 (Or.inl (by norm_num))⟩

/-! ### Facts about the comparators -/

theorem FloatValue.gt_iff_rank (a b : FloatValue) (ha : a ≠ .nan) (hb : b ≠ .nan) :
    a.gt b = true ↔ b.rank < a.rank := by
  cases a <;> cases b <;>
    simp [FloatValue.gt, FloatValue.rank, WithBot.bot_lt_coe] at ha hb ⊢
  exact WithBot.coe_lt_coe.mpr (WithTop.coe_lt_top _)

theorem FloatValue.eq_iff_rank (a b : FloatValue) (ha : a ≠ .nan) (hb : b ≠ .nan) :
    a.eq b = true ↔ a.rank = b.rank := by
  cases a <;> cases b <;>
    simp [FloatValue.eq, FloatValue.rank] at ha hb ⊢

theorem FloatValue.gt_not_eq (a b : FloatValue) (h : a.eq b = true) : a.gt b = false := by
  cases a <;> cases b <;> simp [FloatValue.gt, FloatValue.eq] at h ⊢
  exact le_of_eq h

theorem FloatValue.gt_ne_nan (a b : FloatValue) (h : a.gt b = true) :
    a ≠ .nan ∧ b ≠ .nan := by
  cases a <;> cases b <;> simp [FloatValue.gt] at h ⊢

theorem FloatValue.eq_ne_nan (a b : FloatValue) (h : a.eq b = true) :
    a ≠ .nan ∧ b ≠ .nan := by
  cases a <;> cases b <;> simp [FloatValue.eq] at h ⊢

theorem prefix_compare_iff (x y : PathTrie) :
    prefix_compare x y = true
      ↔ (x.score.gt y.score = true
          ∨ (x.score.eq y.score = true ∧ x.character < y.character)) := by
  unfold prefix_compare
  by_cases hs : x.score.eq y.score = true
  · have hg := FloatValue.gt_not_eq _ _ hs
    by_cases hc : x.character = y.character
    · simp [hs, hc, hg]
    · simp [hs, hc, hg]
  · simp [hs]

/-- A node that goes before another, or after another, has a score that is a
number. -/
theorem prefix_compare_ne_nan (x y : PathTrie) (h : prefix_compare x y = true) :
    x.score ≠ .nan ∧ y.score ≠ .nan := by
  rcases (prefix_compare_iff x y).mp h with h | ⟨h, -⟩
  · exact FloatValue.gt_ne_nan _ _ h
  · exact FloatValue.eq_ne_nan _ _ h

theorem prefix_compare_iff_key (x y : PathTrie) (hx : x.score ≠ .nan)
    (hy : y.score ≠ .nan) :
    prefix_compare x y = true ↔ prefix_key x < prefix_key y := by
  rw [prefix_compare_iff, prefix_key, prefix_key, Prod.Lex.lt_iff,
    FloatValue.gt_iff_rank _ _ hx hy, FloatValue.eq_iff_rank _ _ hx hy]
  simp only [ofLex_toLex, OrderDual.toDual_lt_toDual, OrderDual.toDual_inj]

theorem prefix_compare_false_iff_key (x y : PathTrie) (hx : x.score ≠ .nan)
    (hy : y.score ≠ .nan) :
    prefix_compare x y = false ↔ prefix_key y ≤ prefix_key x := by
  rw [← not_lt, ← prefix_compare_iff_key x y hx hy]
  simp

theorem prefix_key_eq_iff (x y : PathTrie) (hx : x.score ≠ .nan) (hy : y.score ≠ .nan) :
    prefix_key x = prefix_key y
      ↔ (x.score.eq y.score = true ∧ x.character = y.character) := by
  rw [FloatValue.eq_iff_rank _ _ hx hy]
  simp [prefix_key, Prod.ext_iff]

/-- Sortedness under `prefix_compare` in terms of the key, for nodes whose
scores are numbers. -/
theorem sorted_by_prefix_compare_iff (l : List PathTrie) (hl : ∀ x ∈ l, x.score ≠ .nan) :
    sorted_by_prefix_compare l ↔ l.Pairwise (fun a b => prefix_key a ≤ prefix_key b) := by
  haveI : IsTrans PathTrie (fun a b => prefix_key a ≤ prefix_key b) :=
    ⟨fun _ _ _ h₁ h₂ => le_trans h₁ h₂⟩
  unfold sorted_by_prefix_compare
  constructor
  · intro h
    rw [← List.chain'_iff_pairwise]
    refine (List.Chain'.iff_mem.mp h).imp ?_
    rintro a b ⟨ha, hb, hab⟩
    exact (prefix_compare_false_iff_key b a (hl b hb) (hl a ha)).mp hab
  · intro h
    refine List.Pairwise.chain' (h.imp_of_mem ?_)
    intro a b ha hb hab
    exact (prefix_compare_false_iff_key b a (hl b hb) (hl a ha)).mpr hab

/-- Two sorted rearrangements of nodes with number scores and distinct keys
are equal. -/
theorem sorted_by_prefix_compare_unique {s s' : List PathTrie}
    (hn : ∀ x ∈ s, x.score ≠ .nan)
    (hd : distinct_score_character s) (hp : s'.Perm s)
    (hs : sorted_by_prefix_compare s) (hs' : sorted_by_prefix_compare s') : s' = s := by
  haveI : IsAntisymm PathTrie (fun a b => prefix_key a < prefix_key b) :=
    ⟨fun _ _ h₁ h₂ => absurd h₁ (lt_asymm h₂)⟩
  have hn' : ∀ x ∈ s', x.score ≠ .nan := fun x hx => hn x (hp.subset hx)
  have hd' : distinct_score_character s' := by
    unfold distinct_score_character at hd ⊢
    refine (hp.pairwise_iff ?_).mpr hd
    intro a b h hab
    have hne := FloatValue.eq_ne_nan _ _ hab.1
    apply h
    refine ⟨?_, hab.2.symm⟩
    rw [FloatValue.eq_iff_rank _ _ hne.2 hne.1]
    exact ((FloatValue.eq_iff_rank _ _ hne.1 hne.2).mp hab.1).symm
  have strict : ∀ l, (∀ x ∈ l, x.score ≠ .nan) → distinct_score_character l →
      sorted_by_prefix_compare l →
      l.Pairwise (fun a b => prefix_key a < prefix_key b) := by
    intro l h0 h1 h2
    rw [sorted_by_prefix_compare_iff l h0] at h2
    refine (h1.and h2).imp_of_mem ?_
    intro a b ha hb hab
    exact lt_of_le_of_ne hab.2
      (fun he => hab.1 ((prefix_key_eq_iff a b (h0 a ha) (h0 b hb)).mp he))
  exact List.eq_of_perm_of_sorted (r := fun a b => prefix_key a < prefix_key b) hp
    (strict s' hn' hd' hs') (strict s hn hd hs)

/-- C5, as stated, fails: with a score that is not a number every comparison
is false, so a node with such a score is incomparable with every node, and
incomparability is not transitive: the node with score 1 and the node with
score 2 are both incomparable with it, and the second goes before the first. -/
theorem prefix_compare_nan_incomparable :
    (prefix_compare ⟨0, 0, .finite 1⟩ ⟨1, 0, .nan⟩ = false ∧
      prefix_compare ⟨1, 0, .nan⟩ ⟨0, 0, .finite 1⟩ = false) ∧
    (prefix_compare ⟨1, 0, .nan⟩ ⟨2, 0, .finite 2⟩ = false ∧
      prefix_compare ⟨2, 0, .finite 2⟩ ⟨1, 0, .nan⟩ = false) ∧
    ¬ (prefix_compare ⟨0, 0, .finite 1⟩ ⟨2, 0, .finite 2⟩ = false ∧
      prefix_compare ⟨2, 0, .finite 2⟩ ⟨0, 0, .finite 1⟩ = false) := by
  decide

/-- C5, amended: `prefix_compare` is irreflexive and transitive on all
hypothesis nodes, and incomparability (neither node goes before the other) is
transitive through every node whose score is a number (not NaN); so it is a
strict weak ordering on the nodes whose scores are numbers. -/
theorem prefix_compare_strict_weak_order :
    (∀ x, prefix_compare x x = false) ∧
    (∀ x y z, prefix_compare x y = true → prefix_compare y z = true →
      prefix_compare x z = true) ∧
    (∀ x y z, y.score ≠ .nan →
      (prefix_compare x y = false ∧ prefix_compare y x = false) →
      (prefix_compare y z = false ∧ prefix_compare z y = false) →
      (prefix_compare x z = false ∧ prefix_compare z x = false)) := by
  have hnan : ∀ x y : PathTrie, (x.score = .nan ∨ y.score = .nan) →
      prefix_compare x y = false := by
    intro x y h
    by_contra hne
    have := prefix_compare_ne_nan x y (by simpa using hne)
    rcases h with h | h
    · exact this.1 h
    · exact this.2 h
  refine ⟨?_, ?_, ?_⟩
  · intro x
    by_cases hx : x.score = .nan
    · exact hnan x x (Or.inl hx)
    · rw [prefix_compare_false_iff_key x x hx hx]
  · intro x y z hxy hyz
    have h1 := prefix_compare_ne_nan x y hxy
    have h2 := prefix_compare_ne_nan y z hyz
    rw [prefix_compare_iff_key _ _ h1.1 h1.2] at hxy
    rw [prefix_compare_iff_key _ _ h2.1 h2.2] at hyz
    rw [prefix_compare_iff_key _ _ h1.1 h2.2]
    exact lt_trans hxy hyz
  · intro x y z hy hxy hyz
    by_cases hx : x.score = .nan
    · exact ⟨hnan x z (Or.inl hx), hnan z x (Or.inr hx)⟩
    by_cases hz : z.score = .nan
    · exact ⟨hnan x z (Or.inr hz), hnan z x (Or.inl hz)⟩
    rw [prefix_compare_false_iff_key _ _ hx hy, prefix_compare_false_iff_key _ _ hy hx] at hxy
    rw [prefix_compare_false_iff_key _ _ hy hz, prefix_compare_false_iff_key _ _ hz hy] at hyz
    rw [prefix_compare_false_iff_key _ _ hx hz, prefix_compare_false_iff_key _ _ hz hx]
    have h1 : prefix_key x = prefix_key y := le_antisymm hxy.2 hxy.1
    have h2 : prefix_key y = prefix_key z := le_antisymm hyz.2 hyz.1
    rw [h1, h2]
    exact ⟨le_refl _, le_refl _⟩

theorem prefix_compare_strict_weak_order_witness :
    (PathTrie.mk 1 7 (.finite 1)).score ≠ .nan ∧
    (prefix_compare ⟨0, 7, .finite 1⟩ ⟨1, 7, .finite 1⟩ = false ∧
      prefix_compare ⟨1, 7, .finite 1⟩ ⟨0, 7, .finite 1⟩ = false) ∧
    (prefix_compare ⟨1, 7, .finite 1⟩ ⟨2, 7, .finite 1⟩ = false ∧
      prefix_compare ⟨2, 7, .finite 1⟩ ⟨1, 7, .finite 1⟩ = false) ∧
    (prefix_compare ⟨0, 7, .finite 1⟩ ⟨2, 7, .finite 1⟩ = false ∧
      prefix_compare ⟨2, 7, .finite 1⟩ ⟨0, 7, .finite 1⟩ = false) :=
  ⟨by decide, by decide, by decide,
    prefix_compare_strict_weak_order.2.2 ⟨0, 7, .finite 1⟩ ⟨1, 7, .finite 1⟩
      ⟨2, 7, .finite 1⟩ (by decide) (by decide) (by decide)⟩

/-- C6, as stated, fails: a node whose score is not a number is incomparable
with itself while its score is not `==` to itself; and the two nodes below,
with distinct `(score, character)` pairs, are sorted under `prefix_compare` in
both orders. -/
theorem prefix_compare_nan_not_total :
    (prefix_compare ⟨0, 0, .nan⟩ ⟨0, 0, .nan⟩ = false ∧
      prefix_compare ⟨0, 0, .nan⟩ ⟨0, 0, .nan⟩ = false) ∧
    ¬ ((PathTrie.mk 0 0 .nan).score.eq (PathTrie.mk 0 0 .nan).score = true ∧
      (PathTrie.mk 0 0 .nan).character = (PathTrie.mk 0 0 .nan).character) ∧
    distinct_score_character [⟨1, 0, .finite 1⟩, ⟨0, 0, .nan⟩] ∧
    sorted_by_prefix_compare [⟨1, 0, .finite 1⟩, ⟨0, 0, .nan⟩] ∧
    sorted_by_prefix_compare [⟨0, 0, .nan⟩, ⟨1, 0, .finite 1⟩] ∧
    ([⟨1, 0, .finite 1⟩, ⟨0, 0, .nan⟩] : List PathTrie)
      ≠ [⟨0, 0, .nan⟩, ⟨1, 0, .finite 1⟩] := by
  refine ⟨by decide, by decide, ?_, ?_, ?_, by decide⟩
  · simp [distinct_score_character, FloatValue.eq]
  · simp [sorted_by_prefix_compare, prefix_compare, FloatValue.eq, FloatValue.gt]
  · simp [sorted_by_prefix_compare, prefix_compare, FloatValue.eq, FloatValue.gt]

/-- C6, amended: two nodes whose scores are numbers (not NaN) are incomparable
under `prefix_compare` exactly when they have the same score and the same
character; hence every list of nodes whose scores are numbers, with pairwise
distinct `(score, character)` pairs, has exactly one rearrangement that is
sorted under `prefix_compare`, the same for every input order. -/
theorem prefix_compare_total_on_distinct :
    (∀ x y, x.score ≠ .nan → y.score ≠ .nan →
      ((prefix_compare x y = false ∧ prefix_compare y x = false)
        ↔ (x.score.eq y.score = true ∧ x.character = y.character))) ∧
    (∀ l : List PathTrie, (∀ x ∈ l, x.score ≠ .nan) → distinct_score_character l →
      ∃ s, s.Perm l ∧ sorted_by_prefix_compare s ∧
        ∀ l' s' : List PathTrie, l'.Perm l → s'.Perm l' → sorted_by_prefix_compare s' →
          s' = s) := by
  refine ⟨?_, ?_⟩
  · intro x y hx hy
    rw [← prefix_key_eq_iff x y hx hy, prefix_compare_false_iff_key x y hx hy,
      prefix_compare_false_iff_key y x hy hx]
    constructor
    · intro h; exact le_antisymm h.2 h.1
    · intro h; rw [h]; exact ⟨le_refl _, le_refl _⟩
  · intro l hn hd
    haveI : IsTotal PathTrie (fun a b => prefix_key a ≤ prefix_key b) :=
      ⟨fun a b => le_total _ _⟩
    haveI : IsTrans PathTrie (fun a b => prefix_key a ≤ prefix_key b) :=
      ⟨fun _ _ _ h₁ h₂ => le_trans h₁ h₂⟩
    have hperm := List.perm_insertionSort (fun a b => prefix_key a ≤ prefix_key b) l
    have hn' : ∀ x ∈ l.insertionSort (fun a b => prefix_key a ≤ prefix_key b),
        x.score ≠ .nan := fun x hx => hn x (hperm.subset hx)
    have hsorted : sorted_by_prefix_compare
        (l.insertionSort (fun a b => prefix_key a ≤ prefix_key b)) := by
      rw [sorted_by_prefix_compare_iff _ hn']
      exact List.sorted_insertionSort _ l
    refine ⟨_, hperm, hsorted, ?_⟩
    intro l' s' hl' hs' hsrt
    have hd' : distinct_score_character
        (l.insertionSort (fun a b => prefix_key a ≤ prefix_key b)) := by
      unfold distinct_score_character at hd ⊢
      refine (hperm.pairwise_iff ?_).mpr hd
      intro a b h hab
      have hne := FloatValue.eq_ne_nan _ _ hab.1
      apply h
      refine ⟨?_, hab.2.symm⟩
      rw [FloatValue.eq_iff_rank _ _ hne.2 hne.1]
      exact ((FloatValue.eq_iff_rank _ _ hne.1 hne.2).mp hab.1).symm
    exact sorted_by_prefix_compare_unique hn' hd' ((hs'.trans hl').trans hperm.symm)
      hsorted hsrt

theorem prefix_compare_total_on_distinct_witness :
    (∀ x ∈ ([⟨0, 3, .finite 1⟩, ⟨1, 2, .finite 2⟩] : List PathTrie), x.score ≠ .nan) ∧
    distinct_score_character [⟨0, 3, .finite 1⟩, ⟨1, 2, .finite 2⟩] ∧
    ∃ s, s.Perm ([⟨0, 3, .finite 1⟩, ⟨1, 2, .finite 2⟩] : List PathTrie) ∧
      sorted_by_prefix_compare s ∧
      ∀ l' s' : List PathTrie, l'.Perm [⟨0, 3, .finite 1⟩, ⟨1, 2, .finite 2⟩] →
        s'.Perm l' → sorted_by_prefix_compare s' → s' = s :=
  ⟨by decide, by simp [distinct_score_character, FloatValue.eq],
    prefix_compare_total_on_distinct.2 [⟨0, 3, .finite 1⟩, ⟨1, 2, .finite 2⟩]
      (by decide) (by simp [distinct_score_character, FloatValue.eq])⟩

/-- C7: on two nodes present in the score map, `prefix_compare_external`
returns true exactly when the first has the larger mapped score, or the mapped
scores are equal and the first has the smaller character; when the map gives
every node its resident score it agrees with `prefix_compare`. -/
theorem prefix_compare_external_spec :
    (∀ (x y : PathTrie) (scores : ScoreMap) (sx sy : FloatValue),
      scores x = some sx → scores y = some sy →
      prefix_compare_external x y scores
        = some (decide (sx.gt sy = true
            ∨ (sx.eq sy = true ∧ x.character < y.character)))) ∧
    (∀ (x y : PathTrie) (scores : ScoreMap), (∀ n, scores n = some n.score) →
      prefix_compare_external x y scores = some (prefix_compare x y)) := by
  refine ⟨?_, ?_⟩
  · intro x y scores sx sy hx hy
    simp only [prefix_compare_external, hx, hy]
    by_cases hs : sx.eq sy = true
    · have hg := FloatValue.gt_not_eq _ _ hs
      by_cases hc : x.character = y.character
      · simp [hs, hc, hg]
      · simp [hs, hc, hg]
    · simp [hs]
  · intro x y scores hall
    simp only [prefix_compare_external, hall x, hall y, prefix_compare]
    by_cases hs : x.score.eq y.score = true
    · by_cases hc : x.character = y.character
      · simp [hs, hc]
      · simp [hs, hc]
    · simp [hs]

/-! ### Facts about the insertion of a word -/

theorem add_word_to_dictionary_loop_eq_none (char_map : CharMap) :
    ∀ (characters : List Str) (int_word : List UnsignedInt),
      add_word_to_dictionary_loop char_map characters int_word = none
        ↔ ∃ c ∈ characters, char_map c = none := by
  intro characters
  induction characters with
  | nil => intro int_word; simp [add_word_to_dictionary_loop]
  | cons c rest ih =>
    intro int_word
    cases hc : char_map c with
    | none => simp [add_word_to_dictionary_loop, hc]
    | some v => simp [add_word_to_dictionary_loop, hc, ih]

/-- C8: `add_word_to_dictionary` returns false exactly when a token produced by
the selected tokenizer is absent from the character map, and whenever it
returns false the automaton is the one it was given. -/
theorem add_word_to_dictionary_false_iff (word : Str) (char_map : CharMap) (utf8 : Bool)
    (SPACE_ID : Int) (dictionary : StdVectorFst) :
    ((∃ d, add_word_to_dictionary word char_map utf8 SPACE_ID dictionary = .ok (false, d))
      ↔ ∃ c ∈ (if utf8 then split_into_bytes word else split_into_codepoints word),
          char_map c = none) ∧
    (∀ d, add_word_to_dictionary word char_map utf8 SPACE_ID dictionary = .ok (false, d) →
      d = dictionary) := by
  rw [← add_word_to_dictionary_loop_eq_none char_map _ []]
  cases hl : add_word_to_dictionary_loop char_map
      (if utf8 then split_into_bytes word else split_into_codepoints word) [] with
  | none =>
    have hres : add_word_to_dictionary word char_map utf8 SPACE_ID dictionary
        = .ok (false, dictionary) := by
      simp only [add_word_to_dictionary, hl]
    rw [hres]
    refine ⟨⟨fun _ => rfl, fun _ => ⟨dictionary, rfl⟩⟩, ?_⟩
    intro d hd
    injection hd with hd
    injection hd with _ hd
    exact hd.symm
  | some int_word =>
    cases hf : add_word_to_fst (if (!utf8) = true then int_word ++ [unsigned_of_int SPACE_ID]
        else int_word) dictionary with
    | error e =>
      have hres : add_word_to_dictionary word char_map utf8 SPACE_ID dictionary
          = .error e := by
        simp only [add_word_to_dictionary, hl, hf]
      rw [hres]
      simp
    | ok d' =>
      have hres : add_word_to_dictionary word char_map utf8 SPACE_ID dictionary
          = .ok (true, d') := by
        simp only [add_word_to_dictionary, hl, hf]
      rw [hres]
      simp

theorem state?_natCast (d : StdVectorFst) (s : Nat) :
    d.state? (s : Int) = d.states[s]? := by
  simp [StdVectorFst.state?]

theorem open_chain_length (m : Nat) (cs : List UnsignedInt) :
    (open_chain m cs).length = cs.length + 1 := by
  induction cs generalizing m with
  | nil => rfl
  | cons c cs ih => simp [open_chain, ih]

theorem final_chain_length (m : Nat) (cs : List UnsignedInt) :
    (final_chain m cs).length = cs.length + 1 := by
  induction cs generalizing m with
  | nil => rfl
  | cons c cs ih => simp [final_chain, ih]

theorem open_chain_last (m : Nat) (cs : List UnsignedInt) :
    (open_chain m cs)[cs.length]? = some ⟨TropicalWeight.infinity, []⟩ := by
  induction cs generalizing m with
  | nil => rfl
  | cons c cs ih => simpa [open_chain] using ih (m + 1)

theorem open_chain_set_last (m : Nat) (cs : List UnsignedInt) :
    (open_chain m cs).set cs.length ⟨TropicalWeight.One, []⟩ = final_chain m cs := by
  induction cs generalizing m with
  | nil => rfl
  | cons c cs ih => simpa [open_chain, final_chain] using ih (m + 1)

theorem word_arc_eq (c : UnsignedInt) (n : Nat) :
    (⟨label_of_unsigned c, label_of_unsigned c, TropicalWeight.value 0, (n : Int)⟩ : Arc)
      = word_arc c n := rfl

/-- The loop on a non-empty word, in closed form. -/
theorem add_word_to_fst_loop_cons (cs : List UnsignedInt) :
    ∀ (c : UnsignedInt) (d : StdVectorFst) (src : Nat) (st : FstState) (dst0 : Option Int),
      d.states[src]? = some st →
      add_word_to_fst_loop (c :: cs) d (src : Int) dst0
        = .ok (⟨d.start, d.states.set src
              { st with arcs := st.arcs ++ [word_arc c d.states.length] }
              ++ open_chain (d.states.length + 1) cs⟩,
            some ((d.states.length + cs.length : Nat) : Int)) := by
  induction cs with
  | nil =>
    intro c d src st dst0 hst
    have hlt : src < d.states.length := (List.getElem?_eq_some_iff.mp hst).1
    simp only [add_word_to_fst_loop, StdVectorFst.AddState, StdVectorFst.AddArc,
      state?_natCast, List.getElem?_append_left hlt, hst, Int.toNat_ofNat,
      List.set_append_left _ _ hlt, open_chain, word_arc_eq, List.length_nil, Nat.add_zero]
  | cons c' cs ih =>
    intro c d src st dst0 hst
    have hlt : src < d.states.length := (List.getElem?_eq_some_iff.mp hst).1
    rw [add_word_to_fst_loop]
    simp only [StdVectorFst.AddState, StdVectorFst.AddArc,
      state?_natCast, List.getElem?_append_left hlt, hst, Int.toNat_ofNat,
      List.set_append_left _ _ hlt, word_arc_eq]
    have hlen : (d.states.set src { st with arcs := st.arcs ++
        [word_arc c d.states.length] } ++ [(⟨TropicalWeight.infinity, []⟩ : FstState)]).length
        = d.states.length + 1 := by simp
    have hget : (d.states.set src { st with arcs := st.arcs ++
        [word_arc c d.states.length] } ++ [(⟨TropicalWeight.infinity, []⟩ : FstState)])[d.states.length]?
        = some ⟨TropicalWeight.infinity, []⟩ := by
      rw [List.getElem?_append_right (by simp)]
      simp
    rw [ih c' _ d.states.length _ (some (d.states.length : Int)) hget]
    simp only [hlen]
    congr 2
    · congr 1
      rw [List.set_append_right _ _ (by simp)]
      simp [open_chain]
    · congr 1
      simp only [List.length_cons]
      omega

/-- The insertion of a non-empty word into an automaton that has its start
state 0, in closed form. -/
theorem add_word_to_fst_cons (d : StdVectorFst) (c : UnsignedInt) (cs : List UnsignedInt)
    (hstart : d.start = 0) (hne : d.states ≠ []) :
    add_word_to_fst (c :: cs) d = .ok (inserted d c cs) := by
  obtain ⟨start, states⟩ := d
  cases states with
  | nil => exact absurd rfl hne
  | cons st0 tail =>
    simp only at hstart
    subst hstart
    have hloop := add_word_to_fst_loop_cons cs c ⟨0, st0 :: tail⟩ 0 st0 none (by simp)
    simp only [Nat.cast_zero] at hloop
    simp only [add_word_to_fst, add_word_to_fst_init, StdVectorFst.NumStates,
      List.length_cons, Nat.add_one_ne_zero, if_false, StdVectorFst.Start]
    rw [hloop]
    simp only [StdVectorFst.SetFinal, state?_natCast, Int.toNat_ofNat, List.length_cons]
    have hlen : ((st0 :: tail).set 0
        { st0 with arcs := st0.arcs ++ [word_arc c (tail.length + 1)] }).length
        = tail.length + 1 := by simp
    rw [List.getElem?_append_right (by rw [hlen]; omega), hlen,
      Nat.add_sub_cancel_left, open_chain_last]
    simp only [inserted, List.length_cons, List.headD_cons]
    rw [List.set_append_right _ _ (by rw [hlen]; omega), hlen, Nat.add_sub_cancel_left,
      open_chain_set_last]

/-- The insertion into the automaton without states starts from the automaton
that has the start state only. -/
theorem add_word_to_fst_empty (word : List UnsignedInt) :
    add_word_to_fst word StdVectorFst.empty
      = add_word_to_fst word ⟨0, [⟨TropicalWeight.infinity, []⟩]⟩ := by
  simp [add_word_to_fst, add_word_to_fst_init, StdVectorFst.empty, StdVectorFst.NumStates,
    StdVectorFst.AddState, StdVectorFst.SetStart]

theorem arcs_of_natCast (d : StdVectorFst) (s : Nat) (st : FstState)
    (h : d.states[s]? = some st) : d.arcs_of (s : Int) = st.arcs := by
  simp [StdVectorFst.arcs_of, state?_natCast, h]

theorem is_final_natCast (d : StdVectorFst) (s : Nat) (st : FstState)
    (h : d.states[s]? = some st) :
    d.is_final (s : Int) = decide (st.final ≠ TropicalWeight.infinity) := by
  simp [StdVectorFst.is_final, state?_natCast, h]

/-- From the first state of a chain the only path to a final state is the
chain itself. -/
theorem accepting_from_final_chain (cs : List UnsignedInt) :
    ∀ (A : List FstState) (start : Int) (m : Nat), A.length = m → ∀ p : List Arc,
      (StdVectorFst.mk start (A ++ final_chain (m + 1) cs)).accepting_from (m : Int) p = true
        ↔ p = chain_path (m + 1) cs := by
  induction cs with
  | nil =>
    intro A start m hA p
    have hst : (StdVectorFst.mk start (A ++ final_chain (m + 1) [])).states[m]?
        = some ⟨TropicalWeight.One, []⟩ := by
      show (A ++ final_chain (m + 1) [])[m]? = _
      rw [List.getElem?_append_right (le_of_eq hA)]
      simp [final_chain, hA]
    cases p with
    | nil =>
      simp [StdVectorFst.accepting_from, StdVectorFst.path_end, is_final_natCast _ _ _ hst,
        chain_path, TropicalWeight.One]
    | cons a p =>
      simp [StdVectorFst.accepting_from, StdVectorFst.path_end, arcs_of_natCast _ _ _ hst,
        chain_path]
  | cons c cs ih =>
    intro A start m hA p
    have hst : (StdVectorFst.mk start (A ++ final_chain (m + 1) (c :: cs))).states[m]?
        = some ⟨TropicalWeight.infinity, [word_arc c (m + 1)]⟩ := by
      show (A ++ final_chain (m + 1) (c :: cs))[m]? = _
      rw [List.getElem?_append_right (le_of_eq hA)]
      simp [final_chain, hA]
    cases p with
    | nil =>
      simp [StdVectorFst.accepting_from, StdVectorFst.path_end, is_final_natCast _ _ _ hst,
        chain_path]
    | cons a p =>
      have hih := ih (A ++ [⟨TropicalWeight.infinity, [word_arc c (m + 1)]⟩]) start (m + 1)
        (by simp [hA]) p
      have happ : A ++ final_chain (m + 1) (c :: cs)
          = (A ++ [⟨TropicalWeight.infinity, [word_arc c (m + 1)]⟩])
            ++ final_chain (m + 1 + 1) cs := by
        simp [final_chain]
      rw [← happ] at hih
      by_cases ha : a = word_arc c (m + 1)
      · subst ha
        have hnext : (word_arc c (m + 1)).nextstate = ((m + 1 : Nat) : Int) := rfl
        simp only [StdVectorFst.accepting_from, StdVectorFst.path_end,
          arcs_of_natCast _ _ _ hst, List.mem_singleton, if_true, hnext, chain_path,
          List.cons.injEq, true_and]
        exact hih
      · simp [StdVectorFst.accepting_from, StdVectorFst.path_end,
          arcs_of_natCast _ _ _ hst, ha, chain_path]

theorem inserted_states_length (d : StdVectorFst) (c : UnsignedInt) (cs : List UnsignedInt) :
    (inserted d c cs).states.length = d.states.length + (cs.length + 1) := by
  simp [inserted, final_chain_length]

/-- The states other than the start state keep their arcs and final weight. -/
theorem inserted_state?_old (d : StdVectorFst) (c : UnsignedInt) (cs : List UnsignedInt)
    (s : Int) (h1 : 1 ≤ s) (h2 : s < d.states.length) :
    (inserted d c cs).state? s = d.state? s := by
  obtain ⟨k, rfl⟩ : ∃ k : Nat, s = (k : Int) := ⟨s.toNat, by omega⟩
  have hk1 : 1 ≤ k := by omega
  have hk2 : k < d.states.length := by omega
  rw [state?_natCast, state?_natCast]
  show (d.states.set 0 _ ++ final_chain (d.states.length + 1) cs)[k]? = _
  rw [List.getElem?_append_left (by simpa using hk2), List.getElem?_set]
  have : ¬ (0 = k) := by omega
  simp [this]

/-- The start state gets one more arc, the first arc of the new chain. -/
theorem inserted_state?_zero (d : StdVectorFst) (c : UnsignedInt) (cs : List UnsignedInt)
    (st0 : FstState) (h : d.states[0]? = some st0) :
    (inserted d c cs).states[0]?
      = some ⟨st0.final, st0.arcs ++ [word_arc c d.states.length]⟩ := by
  have hlt : 0 < d.states.length := (List.getElem?_eq_some_iff.mp h).1
  have hhead : d.states.headD ⟨TropicalWeight.infinity, []⟩ = st0 := by
    cases hs : d.states with
    | nil => rw [hs] at hlt; exact absurd hlt (by simp)
    | cons a t => rw [hs] at h; simpa using h
  show (d.states.set 0 _ ++ final_chain (d.states.length + 1) cs)[0]? = _
  rw [List.getElem?_append_left (by simpa using hlt), List.getElem?_set, hhead]
  simp [hlt]

theorem arcs_of_mem_states (d : StdVectorFst) (s : Int) (a : Arc) (h : a ∈ d.arcs_of s) :
    ∃ st ∈ d.states, a ∈ st.arcs := by
  unfold StdVectorFst.arcs_of at h
  cases hs : d.state? s with
  | none => rw [hs] at h; exact absurd h (List.not_mem_nil _)
  | some st =>
    rw [hs] at h
    refine ⟨st, ?_, h⟩
    unfold StdVectorFst.state? at hs
    split at hs
    · exact List.getElem?_mem hs
    · exact absurd hs (by simp)

/-- Paths that start at a state other than the start state are the paths of
the automaton before the insertion, and stay among its states. -/
theorem inserted_path_end_old (d : StdVectorFst) (c : UnsignedInt) (cs : List UnsignedInt)
    (hd : IsLexicon d) :
    ∀ (p : List Arc) (s : Int), 1 ≤ s → s < d.states.length →
      (inserted d c cs).path_end s p = d.path_end s p ∧
        ∀ t, d.path_end s p = some t → 1 ≤ t ∧ t < d.states.length := by
  intro p
  induction p with
  | nil =>
    intro s h1 h2
    refine ⟨rfl, ?_⟩
    intro t ht
    simp only [StdVectorFst.path_end, Option.some.injEq] at ht
    subst ht
    exact ⟨h1, h2⟩
  | cons a p ih =>
    intro s h1 h2
    have harcs : (inserted d c cs).arcs_of s = d.arcs_of s := by
      simp only [StdVectorFst.arcs_of, inserted_state?_old d c cs s h1 h2]
    simp only [StdVectorFst.path_end, harcs]
    by_cases ha : a ∈ d.arcs_of s
    · obtain ⟨st, hst, hast⟩ := arcs_of_mem_states d s a ha
      have hb := hd.2.2 st hst a hast
      simp only [ha, if_true]
      exact ih a.nextstate hb.1 hb.2
    · simp [ha]

theorem inserted_accepting_from_old (d : StdVectorFst) (c : UnsignedInt)
    (cs : List UnsignedInt) (hd : IsLexicon d) (p : List Arc) (s : Int)
    (h1 : 1 ≤ s) (h2 : s < d.states.length) :
    (inserted d c cs).accepting_from s p = d.accepting_from s p := by
  obtain ⟨he, hb⟩ := inserted_path_end_old d c cs hd p s h1 h2
  simp only [StdVectorFst.accepting_from, he]
  cases ht : d.path_end s p with
  | none => rfl
  | some t =>
    have := hb t ht
    simp only [StdVectorFst.is_final, inserted_state?_old d c cs t this.1 this.2]

/-- The paths from the start state to a final state after an insertion: those
before the insertion, and the chain of the new word. -/
theorem inserted_accepting_from_start (d : StdVectorFst) (c : UnsignedInt)
    (cs : List UnsignedInt) (hd : IsLexicon d) (p : List Arc) :
    (inserted d c cs).accepting_from 0 p = true
      ↔ (d.accepting_from 0 p = true ∨ p = chain_path d.states.length (c :: cs)) := by
  obtain ⟨hstart, hne, harcs⟩ := hd
  obtain ⟨st0, hst0⟩ : ∃ st0, d.states[0]? = some st0 := by
    obtain ⟨b, L, hL⟩ := List.exists_cons_of_ne_nil hne
    exact ⟨b, by rw [hL]; simp⟩
  have hst0' := inserted_state?_zero d c cs st0 hst0
  have hmem0 : st0 ∈ d.states := List.getElem?_mem hst0
  have hcast : (0 : Int) = ((0 : Nat) : Int) := rfl
  cases p with
  | nil =>
    simp only [StdVectorFst.accepting_from, StdVectorFst.path_end, chain_path]
    rw [hcast, is_final_natCast _ 0 _ hst0', is_final_natCast _ 0 _ hst0]
    simp
  | cons a p =>
    simp only [StdVectorFst.accepting_from, StdVectorFst.path_end, chain_path,
      List.cons.injEq]
    rw [hcast, arcs_of_natCast _ 0 _ hst0', arcs_of_natCast _ 0 _ hst0]
    simp only [List.mem_append, List.mem_singleton]
    by_cases ha : a ∈ st0.arcs
    · have hb := harcs st0 hmem0 a ha
      have hne' : a ≠ word_arc c d.states.length := by
        intro he
        rw [he] at hb
        simp only [word_arc] at hb
        omega
      have hold := inserted_accepting_from_old d c cs ⟨hstart, hne, harcs⟩ p a.nextstate
        hb.1 hb.2
      simp only [StdVectorFst.accepting_from] at hold
      simp only [ha, true_or, if_true, hne', false_and, or_false]
      rw [hold]
    · by_cases hw : a = word_arc c d.states.length
      · have hchain := accepting_from_final_chain cs
          (d.states.set 0 ⟨(d.states.headD ⟨TropicalWeight.infinity, []⟩).final,
            (d.states.headD ⟨TropicalWeight.infinity, []⟩).arcs
              ++ [word_arc c d.states.length]⟩) d.start d.states.length (by simp) p
        subst hw
        have hnext : (word_arc c d.states.length).nextstate = (d.states.length : Int) := rfl
        simp only [StdVectorFst.accepting_from] at hchain
        simp only [ha, or_true, if_true, if_false, true_and, false_or, hnext,
          Bool.false_eq_true]
        exact hchain
      · simp [ha, hw]

/-- The automaton after an insertion is again built by insertions. -/
theorem inserted_isLexicon (d : StdVectorFst) (c : UnsignedInt) (cs : List UnsignedInt)
    (hd : IsLexicon d) : IsLexicon (inserted d c cs) := by
  obtain ⟨hstart, hne, harcs⟩ := hd
  have hpos : 0 < d.states.length := List.length_pos.mpr hne
  have hchain : ∀ (cs : List UnsignedInt) (m : Nat), ∀ st ∈ final_chain m cs, ∀ a ∈ st.arcs,
      (m : Int) ≤ a.nextstate ∧ a.nextstate < ((m + cs.length : Nat) : Int) := by
    intro cs
    induction cs with
    | nil =>
      intro m st hst a ha
      simp only [final_chain, List.mem_singleton] at hst
      subst hst
      exact absurd ha (List.not_mem_nil _)
    | cons c' cs ih =>
      intro m st hst a ha
      simp only [final_chain, List.mem_cons] at hst
      rcases hst with rfl | hst
      · simp only [List.mem_singleton] at ha
        subst ha
        simp only [word_arc, List.length_cons]
        omega
      · have := ih (m + 1) st hst a ha
        simp only [List.length_cons]
        omega
  refine ⟨hstart, ?_, ?_⟩
  · intro h
    have := inserted_states_length d c cs
    rw [h] at this
    simp at this
    omega
  · intro st hst a ha
    rw [inserted_states_length]
    simp only [inserted, List.mem_append] at hst
    rcases hst with hst | hst
    · rcases List.mem_or_eq_of_mem_set hst with hst | rfl
      · have := harcs st hst a ha
        omega
      · simp only [List.mem_append, List.mem_singleton] at ha
        rcases ha with ha | rfl
        · have hh : d.states.headD ⟨TropicalWeight.infinity, []⟩ ∈ d.states := by
            cases hs : d.states with
            | nil => exact absurd hs hne
            | cons x t => simp
          have := harcs _ hh a ha
          omega
        · simp only [word_arc]
          omega
    · have := hchain cs (d.states.length + 1) st hst a ha
      omega

theorem label_of_unsigned_injective : Function.Injective label_of_unsigned := by
  intro a b h
  have ha := a.isLt
  have hb := b.isLt
  apply Fin.ext
  unfold label_of_unsigned at h
  split at h <;> split at h <;> omega

theorem chain_path_ilabel (cs : List UnsignedInt) (m : Nat) :
    (chain_path m cs).map Arc.ilabel = cs.map label_of_unsigned := by
  induction cs generalizing m with
  | nil => rfl
  | cons c cs ih => simp [chain_path, word_arc, ih]

theorem accepting_from_empty (s : Int) (p : List Arc) :
    StdVectorFst.empty.accepting_from s p = false := by
  have hst : StdVectorFst.empty.state? s = none := by
    simp [StdVectorFst.state?, StdVectorFst.empty]
  cases p with
  | nil => simp [StdVectorFst.accepting_from, StdVectorFst.path_end, StdVectorFst.is_final, hst]
  | cons a p =>
    simp [StdVectorFst.accepting_from, StdVectorFst.path_end, StdVectorFst.arcs_of, hst]

theorem accepting_from_start_only (p : List Arc) :
    (StdVectorFst.mk 0 [⟨TropicalWeight.infinity, []⟩]).accepting_from 0 p = false := by
  cases p with
  | nil => rfl
  | cons a p => rfl

theorem isLexicon_start_only :
    IsLexicon (StdVectorFst.mk 0 [⟨TropicalWeight.infinity, []⟩]) := by
  refine ⟨rfl, by simp, ?_⟩
  intro st hst a ha
  simp only [List.mem_singleton] at hst
  subst hst
  exact absurd ha (List.not_mem_nil _)

/-- One insertion of a non-empty word keeps `HoldsWords`. -/
theorem holdsWords_add_word (d : StdVectorFst) (ws : List (List UnsignedInt))
    (w : List UnsignedInt) (hd : HoldsWords d ws) (hw : w ≠ []) :
    ∃ d', add_word_to_fst w d = .ok d' ∧ HoldsWords d' (ws ++ [w]) := by
  obtain ⟨c, cs, rfl⟩ := List.exists_cons_of_ne_nil hw
  -- reduce to an automaton that has its start state
  obtain ⟨d₀, hadd, hlex, paths, hnd, hpaths, hlabels⟩ :
      ∃ d₀, add_word_to_fst (c :: cs) d = add_word_to_fst (c :: cs) d₀ ∧ IsLexicon d₀ ∧
        ∃ paths : List (List Arc), paths.Nodup ∧
          (∀ p, d₀.accepting_from 0 p = true ↔ p ∈ paths) ∧
          paths.map (List.map Arc.ilabel) = ws.map (List.map label_of_unsigned) := by
    obtain ⟨hshape, paths, hnd, hpaths, hlabels⟩ := hd
    rcases hshape with rfl | hlex
    · refine ⟨_, add_word_to_fst_empty _, isLexicon_start_only, paths, hnd, ?_, hlabels⟩
      intro p
      rw [← hpaths p, accepting_from_empty, accepting_from_start_only]
    · refine ⟨d, rfl, hlex, paths, hnd, ?_, hlabels⟩
      intro p
      rw [← hpaths p, hlex.1]
  refine ⟨inserted d₀ c cs, ?_, Or.inr (inserted_isLexicon d₀ c cs hlex), ?_⟩
  · rw [hadd, add_word_to_fst_cons d₀ c cs hlex.1 hlex.2.1]
  · have hnew : chain_path d₀.states.length (c :: cs) ∉ paths := by
      intro hmem
      have hacc := (hpaths _).mpr hmem
      obtain ⟨b, L, hL⟩ := List.exists_cons_of_ne_nil hlex.2.1
      have hst0 : d₀.states[0]? = some b := by rw [hL]; simp
      have hcast : (0 : Int) = ((0 : Nat) : Int) := rfl
      simp only [chain_path, StdVectorFst.accepting_from, StdVectorFst.path_end] at hacc
      rw [hcast, arcs_of_natCast _ 0 _ hst0] at hacc
      by_cases hin : word_arc c d₀.states.length ∈ b.arcs
      · have hb := hlex.2.2 b (List.getElem?_mem hst0) _ hin
        simp only [word_arc] at hb
        omega
      · simp [hin] at hacc
    refine ⟨paths ++ [chain_path d₀.states.length (c :: cs)], ?_, ?_, ?_⟩
    · rw [List.nodup_append]
      refine ⟨hnd, List.nodup_singleton _, ?_⟩
      intro p hp hp'
      rw [List.mem_singleton] at hp'
      exact hnew (hp' ▸ hp)
    · intro p
      have hs : (inserted d₀ c cs).start = 0 := hlex.1
      rw [hs, inserted_accepting_from_start d₀ c cs hlex p, hpaths p]
      simp
    · simp [hlabels, chain_path_ilabel]

/-- Insertions of non-empty words keep `HoldsWords`. -/
theorem holdsWords_add_words (ws' : List (List UnsignedInt)) :
    ∀ (d : StdVectorFst) (ws : List (List UnsignedInt)), HoldsWords d ws →
      (∀ w ∈ ws', w ≠ []) →
      ∃ d', add_words_to_fst ws' d = .ok d' ∧ HoldsWords d' (ws ++ ws') := by
  induction ws' with
  | nil =>
    intro d ws hd _
    exact ⟨d, rfl, by simpa using hd⟩
  | cons w ws' ih =>
    intro d ws hd hne
    obtain ⟨d₁, h₁, hd₁⟩ := holdsWords_add_word d ws w hd (hne w (List.mem_cons_self _ _))
    obtain ⟨d₂, h₂, hd₂⟩ := ih d₁ (ws ++ [w]) hd₁
      (fun x hx => hne x (List.mem_cons_of_mem _ hx))
    refine ⟨d₂, ?_, by simpa using hd₂⟩
    simp only [add_words_to_fst, h₁]
    exact h₂

theorem holdsWords_empty : HoldsWords StdVectorFst.empty [] := by
  refine ⟨Or.inl rfl, [], List.nodup_nil, ?_, rfl⟩
  intro p
  simp [accepting_from_empty]

theorem length_filter_map {α β : Type} [DecidableEq β] (f : α → β) (b : β)
    (l : List α) :
    (l.filter (fun a => decide (f a = b))).length
      = ((l.map f).filter (fun x => decide (x = b))).length := by
  induction l with
  | nil => rfl
  | cons a l ih =>
    by_cases h : f a = b
    · simp [List.filter_cons, h, ih]
    · simp [List.filter_cons, h, ih]

theorem length_filter_map_injective {α β : Type} [DecidableEq α] [DecidableEq β]
    (g : α → β) (hg : Function.Injective g) (v : α) (l : List α) :
    ((l.map g).filter (fun x => decide (x = g v))).length
      = (l.filter (fun x => decide (x = v))).length := by
  induction l with
  | nil => rfl
  | cons a l ih =>
    by_cases h : a = v
    · simp [List.filter_cons, h, ih]
    · have h' : g a ≠ g v := fun e => h (hg e)
      simp [List.filter_cons, h, h', ih]

/-- The paths that spell a given word, for an automaton that holds `ws`. -/
theorem holdsWords_paths_of_word (d : StdVectorFst) (ws : List (List UnsignedInt))
    (hd : HoldsWords d ws) (v : List UnsignedInt) :
    ∃ paths : List (List Arc), paths.Nodup ∧
      (∀ p, d.accepting_path p (v.map label_of_unsigned) = true ↔ p ∈ paths) ∧
      paths.length = times_inserted v ws := by
  obtain ⟨_, paths, hnd, hpaths, hlabels⟩ := hd
  refine ⟨paths.filter (fun p => decide (p.map Arc.ilabel = v.map label_of_unsigned)),
    hnd.filter _, ?_, ?_⟩
  · intro p
    simp only [StdVectorFst.accepting_path, Bool.and_eq_true, decide_eq_true_eq,
      List.mem_filter, hpaths p]
  · rw [length_filter_map (List.map Arc.ilabel), hlabels]
    exact length_filter_map_injective (List.map label_of_unsigned)
      (List.map_injective_iff.mpr label_of_unsigned_injective) v ws

theorem times_inserted_pos_iff (v : List UnsignedInt) (ws : List (List UnsignedInt)) :
    0 < times_inserted v ws ↔ v ∈ ws := by
  unfold times_inserted
  rw [List.length_pos_iff_exists_mem]
  constructor
  · rintro ⟨w, hw⟩
    rw [List.mem_filter, decide_eq_true_eq] at hw
    exact hw.2 ▸ hw.1
  · intro h
    exact ⟨v, List.mem_filter.mpr ⟨h, by simp⟩⟩

theorem times_inserted_nodup (v : List UnsignedInt) (ws : List (List UnsignedInt))
    (hnd : ws.Nodup) (hv : v ∈ ws) : times_inserted v ws = 1 := by
  unfold times_inserted
  induction ws with
  | nil => exact absurd hv (List.not_mem_nil _)
  | cons w ws ih =>
    rw [List.nodup_cons] at hnd
    by_cases h : w = v
    · subst h
      have : ws.filter (fun x => decide (x = w)) = [] := by
        rw [List.filter_eq_nil_iff]
        intro x hx
        simp only [decide_eq_true_eq]
        intro he
        exact hnd.1 (he ▸ hx)
      simp [List.filter_cons, this]
    · have hv' : v ∈ ws := by
        rcases List.mem_cons.mp hv with he | he
        · exact absurd he.symm h
        · exact he
      simp [List.filter_cons, h, ih hnd.2 hv']

/-- Acceptance in terms of the paths that spell the word. -/
theorem holdsWords_accepts_iff (d : StdVectorFst) (ws : List (List UnsignedInt))
    (hd : HoldsWords d ws) (v : List UnsignedInt) : d.accepts v ↔ v ∈ ws := by
  obtain ⟨paths, _, hpaths, hlen⟩ := holdsWords_paths_of_word d ws hd v
  rw [← times_inserted_pos_iff, ← hlen, List.length_pos_iff_exists_mem]
  unfold StdVectorFst.accepts
  exact exists_congr hpaths

/-- C9: after the insertion, one after another, of non-empty token sequences
into the automaton without states, a token sequence is accepted (some path from
the start state to a final state has input labels that spell it) exactly when
it is one of the inserted sequences. -/
theorem add_words_to_fst_accepts_iff (ws : List (List UnsignedInt))
    (hne : ∀ w ∈ ws, w ≠ []) :
    ∃ d, add_words_to_fst ws StdVectorFst.empty = .ok d ∧ ∀ v, d.accepts v ↔ v ∈ ws := by
  obtain ⟨d, hd, hw⟩ := holdsWords_add_words ws StdVectorFst.empty [] holdsWords_empty hne
  rw [List.nil_append] at hw
  exact ⟨d, hd, holdsWords_accepts_iff d ws hw⟩

theorem add_words_to_fst_accepts_iff_witness :
    (∀ w ∈ ([[99, 97, 116]] : List (List UnsignedInt)), w ≠ []) ∧
    ∃ d, add_words_to_fst [[99, 97, 116]] StdVectorFst.empty = .ok d ∧
      ∀ v, d.accepts v ↔ v ∈ ([[99, 97, 116]] : List (List UnsignedInt)) :=
  ⟨by decide, add_words_to_fst_accepts_iff [[99, 97, 116]] (by decide)⟩

/-- C10, as stated, fails: after the same word is inserted twice the word is
accepted and is spelled by two different paths from the start state to a final
state. -/
theorem add_words_to_fst_same_word_twice :
    ∃ d, add_words_to_fst [[1], [1]] StdVectorFst.empty = .ok d ∧
      (∃ p₁ p₂, p₁ ≠ p₂ ∧
        d.accepting_path p₁ (([1] : List UnsignedInt).map label_of_unsigned) = true ∧
        d.accepting_path p₂ (([1] : List UnsignedInt).map label_of_unsigned) = true) ∧
      ¬ ∃! p, d.accepting_path p (([1] : List UnsignedInt).map label_of_unsigned) = true := by
  have h2 : ∃ p₁ p₂ : List Arc, p₁ ≠ p₂ ∧
      (StdVectorFst.mk 0 [⟨.infinity, [⟨1, 1, .value 0, 1⟩, ⟨1, 1, .value 0, 2⟩]⟩,
        ⟨.One, []⟩, ⟨.One, []⟩]).accepting_path p₁
          (([1] : List UnsignedInt).map label_of_unsigned) = true ∧
      (StdVectorFst.mk 0 [⟨.infinity, [⟨1, 1, .value 0, 1⟩, ⟨1, 1, .value 0, 2⟩]⟩,
        ⟨.One, []⟩, ⟨.One, []⟩]).accepting_path p₂
          (([1] : List UnsignedInt).map label_of_unsigned) = true :=
    ⟨[⟨1, 1, .value 0, 1⟩], [⟨1, 1, .value 0, 2⟩], by decide, by decide, by decide⟩
  refine ⟨⟨0, [⟨.infinity, [⟨1, 1, .value 0, 1⟩, ⟨1, 1, .value 0, 2⟩]⟩,
    ⟨.One, []⟩, ⟨.One, []⟩]⟩, rfl, h2, ?_⟩
  rintro ⟨p, _, huniq⟩
  obtain ⟨p₁, p₂, hne, h₁, h₂⟩ := h2
  exact hne ((huniq p₁ h₁).trans (huniq p₂ h₂).symm)

/-- C10, amended: after the insertion, one after another, of non-empty token
sequences into the automaton without states, every token sequence is spelled by
exactly as many paths from the start state to a final state as the number of
times it was inserted; hence, when the inserted sequences are pairwise
distinct, every accepted token sequence is spelled by exactly one such path. -/
theorem add_words_to_fst_paths_per_word (ws : List (List UnsignedInt))
    (hne : ∀ w ∈ ws, w ≠ []) :
    ∃ d, add_words_to_fst ws StdVectorFst.empty = .ok d ∧
      (∀ v, ∃ paths : List (List Arc), paths.Nodup ∧
        (∀ p, d.accepting_path p (v.map label_of_unsigned) = true ↔ p ∈ paths) ∧
        paths.length = times_inserted v ws) ∧
      (ws.Nodup → ∀ v, d.accepts v →
        ∃! p, d.accepting_path p (v.map label_of_unsigned) = true) := by
  obtain ⟨d, hd, hw⟩ := holdsWords_add_words ws StdVectorFst.empty [] holdsWords_empty hne
  rw [List.nil_append] at hw
  refine ⟨d, hd, holdsWords_paths_of_word d ws hw, ?_⟩
  intro hnd v hv
  obtain ⟨paths, _, hpaths, hlen⟩ := holdsWords_paths_of_word d ws hw v
  rw [times_inserted_nodup v ws hnd ((holdsWords_accepts_iff d ws hw v).mp hv)] at hlen
  obtain ⟨p₀, hp₀⟩ := List.length_eq_one.mp hlen
  refine ⟨p₀, (hpaths p₀).mpr (by simp [hp₀]), ?_⟩
  intro p hp
  have := (hpaths p).mp hp
  simpa [hp₀] using this

theorem add_words_to_fst_paths_per_word_witness :
    (∀ w ∈ ([[104, 105], [104, 111]] : List (List UnsignedInt)), w ≠ []) ∧
    ∃ d, add_words_to_fst [[104, 105], [104, 111]] StdVectorFst.empty = .ok d ∧
      (∀ v, ∃ paths : List (List Arc), paths.Nodup ∧
        (∀ p, d.accepting_path p (v.map label_of_unsigned) = true ↔ p ∈ paths) ∧
        paths.length = times_inserted v [[104, 105], [104, 111]]) ∧
      (([[104, 105], [104, 111]] : List (List UnsignedInt)).Nodup → ∀ v, d.accepts v →
        ∃! p, d.accepting_path p (v.map label_of_unsigned) = true) :=
  ⟨by decide, add_words_to_fst_paths_per_word [[104, 105], [104, 111]] (by decide)⟩

/-! ### Words whose tokens are all in the character map -/

theorem add_word_to_dictionary_loop_present (char_map : CharMap) :
    ∀ (characters : List Str) (int_word : List UnsignedInt),
      (∀ c ∈ characters, char_map c ≠ none) →
      add_word_to_dictionary_loop char_map characters int_word
        = some (int_word ++ mapped_tokens char_map characters) := by
  intro characters
  induction characters with
  | nil => intro int_word _; simp [add_word_to_dictionary_loop, mapped_tokens]
  | cons c rest ih =>
    intro int_word h
    cases hc : char_map c with
    | none => exact absurd hc (h c (List.mem_cons_self _ _))
    | some v =>
      have hrest := ih (int_word ++ [unsigned_of_int v])
        (fun x hx => h x (List.mem_cons_of_mem _ hx))
      simp only [add_word_to_dictionary_loop, hc, hrest]
      simp [mapped_tokens, List.filterMap_cons, hc]

/-- A word whose tokens are all in the character map is handed, as
`word_tokens`, to `add_word_to_fst`; the flag is true when that call returns. -/
theorem add_word_to_dictionary_present (word : Str) (char_map : CharMap) (utf8 : Bool)
    (SPACE_ID : Int) (dictionary : StdVectorFst)
    (h : ∀ c ∈ (if utf8 then split_into_bytes word else split_into_codepoints word),
      char_map c ≠ none) :
    add_word_to_dictionary word char_map utf8 SPACE_ID dictionary
      = match add_word_to_fst (word_tokens word char_map utf8 SPACE_ID) dictionary with
        | .error e => .error e
        | .ok d => .ok (true, d) := by
  have hl := add_word_to_dictionary_loop_present char_map _ [] h
  rw [List.nil_append] at hl
  cases utf8 with
  | true =>
    simp only [if_true] at hl
    simp only [add_word_to_dictionary, word_tokens, if_true, hl, Bool.not_true,
      Bool.false_eq_true, if_false]
  | false =>
    simp only [Bool.false_eq_true, if_false] at hl
    simp only [add_word_to_dictionary, word_tokens, Bool.false_eq_true, if_false, hl,
      Bool.not_false, if_true]

theorem add_word_to_fst_init_ok (d : StdVectorFst) :
    add_word_to_fst_init d
      = .ok (if d.states.length = 0 then ⟨0, d.states ++ [⟨TropicalWeight.infinity, []⟩]⟩
          else d) := by
  unfold add_word_to_fst_init StdVectorFst.NumStates
  by_cases h : d.states.length = 0
  · simp [h, StdVectorFst.AddState, StdVectorFst.SetStart]
  · simp [h]

/-- On a word without tokens `add_word_to_fst` reads `dst`, which was never
assigned. -/
theorem add_word_to_fst_nil (d : StdVectorFst) :
    add_word_to_fst [] d = .error Fault.undefined_behaviour := by
  simp only [add_word_to_fst, add_word_to_fst_init_ok, add_word_to_fst_loop]

/-- The token sequence of a successful call is not empty. -/
theorem ne_nil_of_add_word_to_fst_ok (w : List UnsignedInt) (d d' : StdVectorFst)
    (h : add_word_to_fst w d = .ok d') : w ≠ [] := by
  rintro rfl
  rw [add_word_to_fst_nil] at h
  exact absurd h (by simp)

/-- When a word has all its tokens in the character map, at least one token,
and the automaton is the one without states or one built by insertions, the
call returns true and the automaton is the one `add_word_to_fst` gives on the
tokens. -/
theorem add_word_to_dictionary_true (word : Str) (char_map : CharMap) (utf8 : Bool)
    (SPACE_ID : Int) (dictionary : StdVectorFst)
    (h : ∀ c ∈ (if utf8 then split_into_bytes word else split_into_codepoints word),
      char_map c ≠ none)
    (hne : word_tokens word char_map utf8 SPACE_ID ≠ [])
    (hd : dictionary = StdVectorFst.empty ∨ IsLexicon dictionary) :
    ∃ d, add_word_to_fst (word_tokens word char_map utf8 SPACE_ID) dictionary = .ok d ∧
      add_word_to_dictionary word char_map utf8 SPACE_ID dictionary = .ok (true, d) := by
  obtain ⟨c, cs, hcs⟩ := List.exists_cons_of_ne_nil hne
  have hok : ∃ d, add_word_to_fst (word_tokens word char_map utf8 SPACE_ID) dictionary
      = .ok d := by
    rw [hcs]
    rcases hd with rfl | hlex
    · rw [add_word_to_fst_empty, add_word_to_fst_cons _ c cs rfl (by simp)]
      exact ⟨_, rfl⟩
    · rw [add_word_to_fst_cons _ c cs hlex.1 hlex.2.1]
      exact ⟨_, rfl⟩
  obtain ⟨d, hd'⟩ := hok
  refine ⟨d, hd', ?_⟩
  rw [add_word_to_dictionary_present word char_map utf8 SPACE_ID dictionary h, hd']

/-- C11: the claim fails on the empty word in byte mode: all of its (zero)
tokens are in the character map, and the call does not return true, it hands
the empty token sequence to `add_word_to_fst`, which reads the unassigned
`dst`. -/
theorem add_word_to_dictionary_empty_word_byte_mode (char_map : CharMap) (SPACE_ID : Int)
    (dictionary : StdVectorFst) :
    (∀ c ∈ split_into_bytes [], char_map c ≠ none) ∧
    word_tokens [] char_map true SPACE_ID = [] ∧
    add_word_to_dictionary [] char_map true SPACE_ID dictionary
      = .error Fault.undefined_behaviour := by
  refine ⟨by simp [split_into_bytes], rfl, ?_⟩
  rw [add_word_to_dictionary_present [] char_map true SPACE_ID dictionary
    (by simp [split_into_bytes])]
  have : word_tokens [] char_map true SPACE_ID = [] := rfl
  rw [this, add_word_to_fst_nil]

theorem add_word_to_fst_loop_no_assertion (w : List UnsignedInt) :
    ∀ (d : StdVectorFst) (src : Int) (dst : Option Int),
      add_word_to_fst_loop w d src dst ≠ .error Fault.assertion_failed := by
  induction w with
  | nil => intro d src dst; simp [add_word_to_fst_loop]
  | cons c cs ih =>
    intro d src dst
    simp only [add_word_to_fst_loop, StdVectorFst.AddArc]
    split
    · rename_i e he
      split at he
      · exact absurd he (by simp)
      · injection he with he
        rw [← he]
        simp
    · exact ih _ _ _

theorem words_ne_nil_of_add_words_to_fst_ok (ws : List (List UnsignedInt)) :
    ∀ (d d' : StdVectorFst), add_words_to_fst ws d = .ok d' → ∀ w ∈ ws, w ≠ [] := by
  induction ws with
  | nil => intro d d' _ w hw; exact absurd hw (List.not_mem_nil _)
  | cons w ws ih =>
    intro d d' h x hx
    simp only [add_words_to_fst] at h
    cases h1 : add_word_to_fst w d with
    | error e => rw [h1] at h; exact absurd h (by simp)
    | ok d₁ =>
      rw [h1] at h
      rcases List.mem_cons.mp hx with rfl | hx
      · exact ne_nil_of_add_word_to_fst_ok _ d d₁ h1
      · exact ih d₁ d' h x hx

/-- An automaton reached from the one without states by successful insertions
holds the inserted words. -/
theorem holdsWords_of_add_words_to_fst_ok (ws : List (List UnsignedInt)) (d : StdVectorFst)
    (h : add_words_to_fst ws StdVectorFst.empty = .ok d) : HoldsWords d ws := by
  obtain ⟨d', hd', hw⟩ := holdsWords_add_words ws StdVectorFst.empty [] holdsWords_empty
    (words_ne_nil_of_add_words_to_fst_ok ws _ d h)
  rw [h] at hd'
  injection hd' with hd'
  rw [List.nil_append] at hw
  rw [hd']
  exact hw

/-- A successful insertion, in closed form, into an automaton reached by
insertions. -/
theorem add_word_to_fst_ok_eq (d d' : StdVectorFst) (w : List UnsignedInt)
    (hd : d = StdVectorFst.empty ∨ IsLexicon d) (h : add_word_to_fst w d = .ok d') :
    ∃ c cs d₀, w = c :: cs ∧ IsLexicon d₀ ∧ d' = inserted d₀ c cs ∧
      (d = StdVectorFst.empty → d₀ = ⟨0, [⟨TropicalWeight.infinity, []⟩]⟩) ∧
      (IsLexicon d → d₀ = d) := by
  obtain ⟨c, cs, rfl⟩ := List.exists_cons_of_ne_nil (ne_nil_of_add_word_to_fst_ok w d d' h)
  rcases hd with rfl | hlex
  · rw [add_word_to_fst_empty, add_word_to_fst_cons _ c cs rfl (by simp)] at h
    injection h with h
    refine ⟨c, cs, _, rfl, isLexicon_start_only, h.symm, fun _ => rfl, ?_⟩
    intro hl
    exact absurd rfl hl.2.1
  · rw [add_word_to_fst_cons _ c cs hlex.1 hlex.2.1] at h
    injection h with h
    exact ⟨c, cs, d, rfl, hlex, h.symm, fun he => absurd (he ▸ hlex).2.1 (fun hh => hh rfl),
      fun _ => rfl⟩

/-- After at least one successful insertion the automaton is one built by
insertions. -/
theorem isLexicon_of_add_words_to_fst_ok (ws : List (List UnsignedInt)) :
    ∀ (d₀ d : StdVectorFst), (d₀ = StdVectorFst.empty ∨ IsLexicon d₀) →
      add_words_to_fst ws d₀ = .ok d → (ws ≠ [] ∨ IsLexicon d₀) → IsLexicon d := by
  induction ws with
  | nil =>
    intro d₀ d _ h hne
    simp only [add_words_to_fst, Except.ok.injEq] at h
    rcases hne with hne | hl
    · exact absurd rfl hne
    · exact h ▸ hl
  | cons w ws ih =>
    intro d₀ d hd₀ h _
    simp only [add_words_to_fst] at h
    cases h1 : add_word_to_fst w d₀ with
    | error e => rw [h1] at h; exact absurd h (by simp)
    | ok d₁ =>
      rw [h1] at h
      obtain ⟨c, cs, d₂, -, hl₂, rfl, -, -⟩ := add_word_to_fst_ok_eq d₀ d₁ w hd₀ h1
      have hl₁ := inserted_isLexicon d₂ c cs hl₂
      exact ih _ d (Or.inr hl₁) h (Or.inr hl₁)

/-- C12: the assertion `start == 0` never fails, on any automaton and any word.
After any sequence of calls on non-empty words from the automaton without
states every call has returned, the start state of the automaton is state 0
as soon as one call was made, the first statement of a further call (on any
word) leaves the start state 0, and a further call on a non-empty word returns
with start state 0.  Also, whenever calls return, the start state is 0 after
them. -/
theorem add_word_to_fst_start_zero (ws : List (List UnsignedInt)) (w : List UnsignedInt)
    (hne : ∀ x ∈ ws, x ≠ []) (hw : w ≠ []) :
    (∀ (w' : List UnsignedInt) (d : StdVectorFst),
      add_word_to_fst w' d ≠ .error Fault.assertion_failed) ∧
    (∃ d, add_words_to_fst ws StdVectorFst.empty = .ok d ∧
      (ws ≠ [] → d.start = 0) ∧
      (∃ d₀, add_word_to_fst_init d = .ok d₀ ∧ d₀.start = 0) ∧
      ∃ d', add_word_to_fst w d = .ok d' ∧ d'.start = 0) ∧
    (∀ (ws' : List (List UnsignedInt)) (d : StdVectorFst),
      add_words_to_fst ws' StdVectorFst.empty = .ok d →
      ∀ (w' : List UnsignedInt) (d' : StdVectorFst), add_word_to_fst w' d = .ok d' →
        d'.start = 0) := by
  refine ⟨?_, ?_, ?_⟩
  · intro w d
    simp only [add_word_to_fst, add_word_to_fst_init_ok]
    split
    · rename_i e he
      intro h
      injection h with h
      rw [h] at he
      exact add_word_to_fst_loop_no_assertion _ _ _ _ he
    · simp
    · simp only [StdVectorFst.SetFinal]
      split <;> simp
  · obtain ⟨d, hd, hwords⟩ :=
      holdsWords_add_words ws StdVectorFst.empty [] holdsWords_empty hne
    obtain ⟨c, cs, rfl⟩ := List.exists_cons_of_ne_nil hw
    refine ⟨d, hd, ?_, ?_, ?_⟩
    · intro hws
      exact (isLexicon_of_add_words_to_fst_ok ws _ d (Or.inl rfl) hd (Or.inl hws)).1
    · rw [add_word_to_fst_init_ok]
      refine ⟨_, rfl, ?_⟩
      rcases hwords.1 with rfl | hlex
      · rfl
      · have : d.states.length ≠ 0 := fun h => hlex.2.1 (List.eq_nil_of_length_eq_zero h)
        simp only [this, if_false]
        exact hlex.1
    · rcases hwords.1 with rfl | hlex
      · rw [add_word_to_fst_empty, add_word_to_fst_cons _ c cs rfl (by simp)]
        exact ⟨_, rfl, rfl⟩
      · rw [add_word_to_fst_cons _ c cs hlex.1 hlex.2.1]
        exact ⟨_, rfl, hlex.1⟩
  · intro ws d hws w d' hw
    have hd := (holdsWords_of_add_words_to_fst_ok ws d hws).1
    obtain ⟨c, cs, d₀, -, hlex, rfl, -, -⟩ := add_word_to_fst_ok_eq d d' w hd hw
    exact hlex.1

theorem add_word_to_fst_start_zero_witness :
    (∀ x ∈ ([[104, 105]] : List (List UnsignedInt)), x ≠ []) ∧
    (([104, 111] : List UnsignedInt) ≠ []) ∧
    ∃ d, add_words_to_fst [[104, 105]] StdVectorFst.empty = .ok d ∧
      (([[104, 105]] : List (List UnsignedInt)) ≠ [] → d.start = 0) ∧
      (∃ d₀, add_word_to_fst_init d = .ok d₀ ∧ d₀.start = 0) ∧
      ∃ d', add_word_to_fst [104, 111] d = .ok d' ∧ d'.start = 0 :=
  ⟨by decide, by decide,
    (add_word_to_fst_start_zero [[104, 105]] [104, 111] (by decide) (by decide)).2.1⟩

/-- C17: the claim fails on the word without tokens: `add_word_to_fst` does not
mark the start state, it reads `dst`, which was never assigned; the call is
reached through `add_word_to_dictionary` with the empty word in byte mode. -/
theorem add_word_to_fst_empty_word :
    (∀ d : StdVectorFst, add_word_to_fst [] d = .error Fault.undefined_behaviour) ∧
    (∀ d : StdVectorFst, ∀ src : Int,
      add_word_to_fst_loop [] d src none = .ok (d, none)) ∧
    (∀ (char_map : CharMap) (SPACE_ID : Int) (d : StdVectorFst),
      add_word_to_dictionary [] char_map true SPACE_ID d
        = .error Fault.undefined_behaviour) := by
  refine ⟨add_word_to_fst_nil, fun _ _ => rfl, ?_⟩
  intro char_map SPACE_ID d
  rw [add_word_to_dictionary_present [] char_map true SPACE_ID d
    (by simp [split_into_bytes])]
  have : word_tokens [] char_map true SPACE_ID = [] := rfl
  rw [this, add_word_to_fst_nil]

/-! ### Facts about the text units -/

theorem split_into_codepoints_loop_flatten :
    ∀ (str : List Nat) (result : List Str) (out_str : Str),
      (split_into_codepoints_loop str result out_str).flatten
        = result.flatten ++ out_str ++ str := by
  intro str
  induction str with
  | nil => intro result out_str; simp [split_into_codepoints_loop]
  | cons c rest ih =>
    intro result out_str
    unfold split_into_codepoints_loop
    split
    · split
      · rw [ih]; simp
      · rw [ih]; simp
    · rw [ih]; simp

theorem split_into_codepoints_loop_ne_nil :
    ∀ (str : List Nat) (result : List Str) (out_str : Str),
      (∀ e ∈ result, e ≠ []) → (out_str ≠ [] ∨ str ≠ []) →
      ∀ e ∈ split_into_codepoints_loop str result out_str, e ≠ [] := by
  intro str
  induction str with
  | nil =>
    intro result out_str hres hne e he
    simp only [split_into_codepoints_loop, List.mem_append, List.mem_singleton] at he
    rcases he with he | rfl
    · exact hres e he
    · exact hne.resolve_right (fun h => h rfl)
  | cons c rest ih =>
    intro result out_str hres _ e he
    unfold split_into_codepoints_loop at he
    split at he
    · split at he
      · rename_i hout
        refine ih _ _ ?_ (Or.inl (by simp)) e he
        intro x hx
        rcases List.mem_append.mp hx with hx | hx
        · exact hres x hx
        · rw [List.mem_singleton] at hx
          rw [hx]; exact hout
      · exact ih _ _ hres (Or.inl (by simp)) e he
    · exact ih _ _ hres (Or.inl (by simp)) e he

theorem get_utf8_str_len_foldl (str : Str) (n : Nat) :
    str.foldl (fun str_len c => str_len + (if (c &&& 0xc0) != 0x80 then 1 else 0)) n
      = n + str.countP byte_is_codepoint_boundary := by
  induction str generalizing n with
  | nil => simp
  | cons c rest ih =>
    rw [List.foldl_cons, ih, List.countP_cons]
    simp only [byte_is_codepoint_boundary]
    omega

theorem get_utf8_str_len_eq_countP (str : Str) :
    get_utf8_str_len str = str.countP byte_is_codepoint_boundary := by
  rw [get_utf8_str_len, get_utf8_str_len_foldl, Nat.zero_add]

theorem byte_test_below_256 :
    ∀ b, b < 256 → ((b &&& 0xC0) != 0x80) = decide (b / 64 % 4 ≠ 2) := by
  set_option maxRecDepth 100000 in decide

/-- The test of the code on a byte, in terms of the two bits above the low six
bits. -/
theorem byte_is_codepoint_boundary_iff (c : Nat) :
    byte_is_codepoint_boundary c = decide (c / 64 % 4 ≠ 2) := by
  have hmod : c &&& 0xC0 = (c % 256) &&& 0xC0 := by
    calc c &&& 0xC0 = c &&& ((2 ^ 8 - 1) &&& 0xC0) := by
          rw [show ((2 ^ 8 - 1) &&& 0xC0 : Nat) = 0xC0 from by decide]
      _ = (c &&& (2 ^ 8 - 1)) &&& 0xC0 := (Nat.and_assoc _ _ _).symm
      _ = (c % 2 ^ 8) &&& 0xC0 := by rw [Nat.and_pow_two_sub_one_eq_mod]
      _ = (c % 256) &&& 0xC0 := by rw [show (2 : Nat) ^ 8 = 256 from by decide]
  have hdiv : c / 64 % 4 = (c % 256) / 64 % 4 := by omega
  unfold byte_is_codepoint_boundary
  rw [hmod, hdiv]
  exact byte_test_below_256 _ (Nat.mod_lt _ (by decide))

theorem split_into_codepoints_loop_units :
    ∀ (str : List Nat) (result : List Str) (out_str : Str),
      (∀ e ∈ result, is_codepoint_unit e) → is_codepoint_unit out_str →
      (∀ e ∈ split_into_codepoints_loop str result out_str, is_codepoint_unit e) ∧
      (split_into_codepoints_loop str result out_str).length
        = result.length + 1 + str.countP byte_is_codepoint_boundary := by
  intro str
  induction str with
  | nil =>
    intro result out_str hres hout
    refine ⟨?_, by simp [split_into_codepoints_loop]⟩
    intro e he
    simp only [split_into_codepoints_loop, List.mem_append, List.mem_singleton] at he
    rcases he with he | rfl
    · exact hres e he
    · exact hout
  | cons c rest ih =>
    intro result out_str hres hout
    have hne : out_str ≠ [] := by
      obtain ⟨b, t, rfl, -, -⟩ := hout
      simp
    unfold split_into_codepoints_loop
    by_cases hc : byte_is_codepoint_boundary c = true
    · simp only [hc, if_true, hne, ne_eq, not_false_eq_true, List.nil_append]
      have h := ih (result ++ [out_str]) [c] (by
        intro x hx
        rcases List.mem_append.mp hx with hx | hx
        · exact hres x hx
        · rw [List.mem_singleton] at hx
          rw [hx]; exact hout) ⟨c, [], rfl, hc, by simp⟩
      refine ⟨h.1, ?_⟩
      rw [h.2, List.countP_cons_of_pos _ _ hc]
      simp only [List.length_append, List.length_singleton]
      omega
    · simp only [hc, if_false, Bool.false_eq_true]
      have hc' : byte_is_codepoint_boundary c = false := by simpa using hc
      have h := ih result (out_str ++ [c]) hres (by
        obtain ⟨b, t, rfl, hb, ht⟩ := hout
        refine ⟨b, t ++ [c], by simp, hb, ?_⟩
        intro x hx
        rcases List.mem_append.mp hx with hx | hx
        · exact ht x hx
        · rw [List.mem_singleton] at hx
          rw [hx]; exact hc')
      refine ⟨h.1, ?_⟩
      rw [h.2, List.countP_cons_of_neg _ _ hc]

/-- C13: concatenating the elements returned by `split_into_codepoints`, in
order, gives back the input byte for byte. -/
theorem split_into_codepoints_flatten (str : Str) :
    (split_into_codepoints str).flatten = str := by
  rw [split_into_codepoints, split_into_codepoints_loop_flatten]
  simp

/-- C14: on a non-empty byte string whose first byte is not a continuation
byte, `split_into_codepoints` returns exactly `get_utf8_str_len` elements, each
of them one non-continuation byte followed only by continuation bytes. -/
theorem split_into_codepoints_units (c : Nat) (rest : Str)
    (hc : byte_is_codepoint_boundary c = true) :
    (split_into_codepoints (c :: rest)).length = get_utf8_str_len (c :: rest) ∧
    ∀ e ∈ split_into_codepoints (c :: rest),
      ∃ b t, e = b :: t ∧ byte_is_codepoint_boundary b = true ∧
        ∀ x ∈ t, byte_is_codepoint_boundary x = false := by
  have hstep : split_into_codepoints (c :: rest) = split_into_codepoints_loop rest [] [c] := by
    rw [split_into_codepoints, split_into_codepoints_loop]
    simp [hc]
  have h := split_into_codepoints_loop_units rest [] [c]
    (fun _ he => absurd he (List.not_mem_nil _)) ⟨c, [], rfl, hc, by simp⟩
  rw [hstep, get_utf8_str_len_eq_countP, List.countP_cons_of_pos _ _ hc]
  refine ⟨?_, h.1⟩
  rw [h.2]
  simp only [List.length_nil]
  omega

theorem split_into_codepoints_units_witness :
    byte_is_codepoint_boundary 97 = true ∧
    ((split_into_codepoints (97 :: [0xC3, 0xA9, 98])).length
        = get_utf8_str_len (97 :: [0xC3, 0xA9, 98]) ∧
      ∀ e ∈ split_into_codepoints (97 :: [0xC3, 0xA9, 98]),
        ∃ b t, e = b :: t ∧ byte_is_codepoint_boundary b = true ∧
          ∀ x ∈ t, byte_is_codepoint_boundary x = false) :=
  ⟨by decide, split_into_codepoints_units 97 [0xC3, 0xA9, 98] (by decide)⟩

/-- C15: `get_utf8_str_len` is the number of bytes whose top two bits are not
`10`; it is 0 on the empty string, the byte length on a string of 7-bit ASCII
bytes, and 3 on "abc". -/
theorem get_utf8_str_len_spec :
    (∀ text : Str, get_utf8_str_len text
      = text.countP (fun c => decide (c / 64 % 4 ≠ 2))) ∧
    get_utf8_str_len [] = 0 ∧
    (∀ text : Str, (∀ c ∈ text, c < 128) → get_utf8_str_len text = text.length) ∧
    get_utf8_str_len [97, 98, 99] = 3 := by
  have h1 : ∀ text : Str, get_utf8_str_len text
      = text.countP (fun c => decide (c / 64 % 4 ≠ 2)) := by
    intro text
    rw [get_utf8_str_len_eq_countP]
    congr 1
    funext c
    exact byte_is_codepoint_boundary_iff c
  refine ⟨h1, rfl, ?_, by decide⟩
  intro text hascii
  rw [h1, List.countP_eq_length]
  intro c hc
  have := hascii c hc
  simp only [decide_eq_true_eq]
  omega

/-- Where the guard against an empty element works: on a non-empty byte string
no element is empty. -/
theorem split_into_codepoints_ne_nil (str : Str) (h : str ≠ []) :
    ∀ e ∈ split_into_codepoints str, e ≠ [] :=
  split_into_codepoints_loop_ne_nil str [] [] (fun _ he => absurd he (List.not_mem_nil _))
    (Or.inr h)

/-- C19: the claim fails on the empty string: `split_into_codepoints` returns
one element, and that element is empty. -/
theorem split_into_codepoints_empty_string :
    split_into_codepoints [] = [[]] ∧ ∃ e ∈ split_into_codepoints [], e = [] := by
  refine ⟨rfl, [], ?_, rfl⟩
  simp [split_into_codepoints, split_into_codepoints_loop]

/-! ### Facts about `split_str` -/

theorem find_in_suffix_spec (delim : Str) :
    ∀ (t : Str) (pos : Nat),
      (find_in_suffix delim t pos = none ∧ ∀ j, j ≤ t.length → ¬ delim <+: t.drop j) ∨
      (∃ k, find_in_suffix delim t pos = some (pos + k) ∧ k ≤ t.length ∧
        delim <+: t.drop k ∧ ∀ j, j < k → ¬ delim <+: t.drop j) := by
  intro t
  induction t with
  | nil =>
    intro pos
    by_cases hd : delim = []
    · exact Or.inr ⟨0, by simp [find_in_suffix, hd], le_refl _, by simp [hd],
        fun j hj => absurd hj (Nat.not_lt_zero j)⟩
    · refine Or.inl ⟨by simp [find_in_suffix, hd], ?_⟩
      intro j _ h
      rw [List.drop_nil, List.prefix_nil] at h
      exact hd h
  | cons c rest ih =>
    intro pos
    by_cases hp : delim <+: c :: rest
    · exact Or.inr ⟨0, by simp [find_in_suffix, hp], Nat.zero_le _, by simpa using hp,
        fun j hj => absurd hj (Nat.not_lt_zero j)⟩
    · rcases ih (pos + 1) with ⟨hnone, hno⟩ | ⟨k, hsome, hk, hpre, hmin⟩
      · refine Or.inl ⟨by simp [find_in_suffix, hp, hnone], ?_⟩
        intro j hj
        cases j with
        | zero => simpa using hp
        | succ j =>
          rw [List.drop_succ_cons]
          exact hno j (by simpa using hj)
      · refine Or.inr ⟨k + 1, ?_, by simpa using hk, by simpa using hpre, ?_⟩
        · simp only [find_in_suffix, hp, if_false, hsome]
          congr 1
          omega
        · intro j hj
          cases j with
          | zero => simpa using hp
          | succ j =>
            rw [List.drop_succ_cons]
            exact hmin j (by omega)

theorem cut_at_delimiter_skip (delim : Str) :
    ∀ (skip : Nat) (u cur : Str), skip ≤ u.length →
      cut_at_delimiter delim u skip cur = cut_at_delimiter delim (u.drop skip) 0 cur := by
  intro skip
  induction skip with
  | zero => intro u cur _; rfl
  | succ n ih =>
    intro u cur h
    cases u with
    | nil => simp at h
    | cons c rest =>
      rw [cut_at_delimiter, List.drop_succ_cons]
      exact ih rest cur (by simpa using h)

theorem cut_at_delimiter_no_occurrence (delim : Str) :
    ∀ (k : Nat) (t cur : Str), k ≤ t.length → (∀ j, j < k → ¬ delim <+: t.drop j) →
      cut_at_delimiter delim t 0 cur
        = cut_at_delimiter delim (t.drop k) 0 (cur ++ t.take k) := by
  intro k
  induction k with
  | zero => intro t cur _ _; simp
  | succ k ih =>
    intro t cur hk hno
    cases t with
    | nil => simp at hk
    | cons c rest =>
      have h0 : ¬ delim <+: c :: rest := by simpa using hno 0 (Nat.succ_pos k)
      rw [cut_at_delimiter, if_neg h0, List.drop_succ_cons, List.take_succ_cons]
      rw [ih rest (cur ++ [c]) (by simpa using hk)
        (fun j hj => by simpa using hno (j + 1) (by omega))]
      simp

theorem cut_at_delimiter_occurrence (delim : Str) (hd : delim ≠ []) (t cur : Str)
    (h : delim <+: t) :
    cut_at_delimiter delim t 0 cur
      = cur :: cut_at_delimiter delim (t.drop delim.length) 0 [] := by
  have hlen : delim.length ≤ t.length := h.length_le
  have hpos : 0 < delim.length := List.length_pos.mpr hd
  cases t with
  | nil => exact absurd (List.eq_nil_of_length_eq_zero (Nat.le_zero.mp hlen)) hd
  | cons c rest =>
    rw [cut_at_delimiter, if_pos h,
      cut_at_delimiter_skip delim (delim.length - 1) rest [] (by simp at hlen; omega)]
    obtain ⟨n, hn⟩ : ∃ n, delim.length = n + 1 := ⟨delim.length - 1, by omega⟩
    rw [hn, List.drop_succ_cons]
    simp

/-- The text from a position on: either the delimiter does not occur and the
text is one segment, or it first occurs after `k` bytes, which are the first
segment, and the cutting goes on behind the occurrence. -/
theorem cut_at_delimiter_cases (delim : Str) (hd : delim ≠ []) (t : Str) (pos : Nat) :
    (find_in_suffix delim t pos = none ∧ cut_at_delimiter delim t 0 [] = [t] ∧
      ∀ j, j ≤ t.length → ¬ delim <+: t.drop j) ∨
    (∃ k, find_in_suffix delim t pos = some (pos + k) ∧ k + delim.length ≤ t.length ∧
      (∀ j, j < k → ¬ delim <+: t.drop j) ∧
      cut_at_delimiter delim t 0 []
        = t.take k :: cut_at_delimiter delim (t.drop (k + delim.length)) 0 []) := by
  rcases find_in_suffix_spec delim t pos with ⟨hnone, hno⟩ | ⟨k, hsome, hk, hpre, hmin⟩
  · refine Or.inl ⟨hnone, ?_, hno⟩
    rw [cut_at_delimiter_no_occurrence delim t.length t [] (le_refl _)
      (fun j hj => hno j (le_of_lt hj))]
    simp [cut_at_delimiter]
  · have hlen : delim.length ≤ (t.drop k).length := hpre.length_le
    rw [List.length_drop] at hlen
    refine Or.inr ⟨k, hsome, by omega, hmin, ?_⟩
    rw [cut_at_delimiter_no_occurrence delim k t [] hk hmin,
      cut_at_delimiter_occurrence delim hd _ _ hpre, List.drop_drop, List.nil_append]

theorem string_find_eq (s delim : Str) (start : Nat) (h : start ≤ s.length) :
    string_find s delim start = find_in_suffix delim (s.drop start) start := by
  simp [string_find, h]

/-- The loop of `split_str` on a non-empty delimiter, given enough fuel: it
appends to `result` the non-empty segments of the text from `start` on. -/
theorem split_str_loop_spec (s delim : Str) (hd : delim ≠ []) :
    ∀ (fuel start : Nat) (result : List Str), start ≤ s.length → s.length - start < fuel →
      split_str_loop s delim fuel start result
        = some (result ++ (cut_at_delimiter delim (s.drop start) 0 []).filter
            (fun seg => decide (seg ≠ []))) := by
  have hpos : 0 < delim.length := List.length_pos.mpr hd
  intro fuel
  induction fuel with
  | zero => intro start result _ h; exact absurd h (Nat.not_lt_zero _)
  | succ f ih =>
    intro start result hstart hfuel
    rw [split_str_loop, string_find_eq s delim start hstart]
    rcases cut_at_delimiter_cases delim hd (s.drop start) start with
      ⟨hnone, hcut, -⟩ | ⟨k, hsome, hk, -, hcut⟩
    · rw [hnone, hcut]
      by_cases hlt : start < s.length
      · have hne : s.drop start ≠ [] := by
          intro h
          have := congrArg List.length h
          simp at this
          omega
        simp [hlt, hne]
      · have he : s.drop start = [] := List.drop_eq_nil_of_le (by omega)
        simp [hlt, he]
    · rw [List.length_drop] at hk
      rw [hsome, hcut]
      simp only []
      rw [ih (start + k + delim.length) _ (by omega) (by omega), List.drop_drop]
      have hdrop : start + (k + delim.length) = start + k + delim.length := by omega
      rw [hdrop]
      by_cases hk0 : k = 0
      · subst hk0
        simp
      · have hgt : start + k > start := by omega
        have hne : (s.drop start).take k ≠ [] := by
          intro h
          have := congrArg List.length h
          simp at this
          omega
        have hsub : start + k - start = k := by omega
        simp [hgt, hne, hsub, List.filter_cons]

theorem not_infix_of_no_prefix (delim e : Str)
    (h : ∀ j, j ≤ e.length → ¬ delim <+: e.drop j) : ¬ delim <:+: e := by
  rintro ⟨a, b, hab⟩
  refine h a.length ?_ ?_
  · rw [← hab]; simp
  · rw [← hab, List.append_assoc, List.drop_left]
    exact List.prefix_append _ _

theorem cut_at_delimiter_no_infix (delim : Str) (hd : delim ≠ []) :
    ∀ (n : Nat) (t : Str), t.length ≤ n →
      ∀ e ∈ cut_at_delimiter delim t 0 [], ¬ delim <:+: e := by
  have hpos : 0 < delim.length := List.length_pos.mpr hd
  intro n
  induction n with
  | zero =>
    intro t ht e he
    rcases cut_at_delimiter_cases delim hd t 0 with ⟨-, hcut, hno⟩ | ⟨k, -, hk, -, -⟩
    · rw [hcut, List.mem_singleton] at he
      rw [he]
      exact not_infix_of_no_prefix delim t hno
    · omega
  | succ n ih =>
    intro t ht e he
    rcases cut_at_delimiter_cases delim hd t 0 with ⟨-, hcut, hno⟩ | ⟨k, -, hk, hmin, hcut⟩
    · rw [hcut, List.mem_singleton] at he
      rw [he]
      exact not_infix_of_no_prefix delim t hno
    · rw [hcut, List.mem_cons] at he
      rcases he with rfl | he
      · apply not_infix_of_no_prefix
        intro j hj hpre
        rw [List.length_take] at hj
        have hjk : j ≤ k := le_trans hj (Nat.min_le_left _ _)
        rw [List.drop_take] at hpre
        rcases Nat.lt_or_ge j k with hlt | hge
        · exact hmin j hlt (hpre.trans (List.take_prefix _ _))
        · have : k - j = 0 := by omega
          rw [this, List.take_zero, List.prefix_nil] at hpre
          exact hd hpre
      · exact ih (t.drop (k + delim.length)) (by rw [List.length_drop]; omega) e he

/-- C16: on a non-empty delimiter `split_str` returns (the loop leaves within
`length + 1` iterations) the non-empty segments, in order, obtained by cutting
the text at the leftmost non-overlapping occurrences of the delimiter; no
returned element is empty and none contains the delimiter; and
`split_str("a,,b", ",") = ["a","b"]`, `split_str("", ",") = []`,
`split_str("abc", "x") = ["abc"]`. -/
theorem split_str_spec (s delim : Str) (hd : delim ≠ []) :
    (∀ fuel, s.length + 1 ≤ fuel →
      split_str fuel s delim = some (split_and_remove_empty s delim)) ∧
    (∀ e ∈ split_and_remove_empty s delim, e ≠ [] ∧ ¬ delim <:+: e) ∧
    split_str 5 [97, 44, 44, 98] [44] = some [[97], [98]] ∧
    split_str 1 [] [44] = some [] ∧
    split_str 4 [97, 98, 99] [120] = some [[97, 98, 99]] := by
  refine ⟨?_, ?_, by decide, by decide, by decide⟩
  · intro fuel hfuel
    rw [split_str, split_str_loop_spec s delim hd fuel 0 [] (Nat.zero_le _) (by omega)]
    simp [split_and_remove_empty]
  · intro e he
    simp only [split_and_remove_empty, List.mem_filter, decide_eq_true_eq] at he
    exact ⟨he.2, cut_at_delimiter_no_infix delim hd s.length s (le_refl _) e he.1⟩

theorem split_str_spec_witness :
    (([44] : Str) ≠ []) ∧
    ((∀ fuel, ([97, 44, 44, 98] : Str).length + 1 ≤ fuel →
      split_str fuel [97, 44, 44, 98] [44]
        = some (split_and_remove_empty [97, 44, 44, 98] [44])) ∧
    (∀ e ∈ split_and_remove_empty [97, 44, 44, 98] [44], e ≠ [] ∧ ¬ ([44] : Str) <:+: e) ∧
    split_str 5 [97, 44, 44, 98] [44] = some [[97], [98]] ∧
    split_str 1 [] [44] = some [] ∧
    split_str 4 [97, 98, 99] [120] = some [[97, 98, 99]]) :=
  ⟨by decide, split_str_spec [97, 44, 44, 98] [44] (by decide)⟩

theorem string_find_some (s delim : Str) (start e : Nat)
    (h : string_find s delim start = some e) :
    start ≤ e ∧ e + delim.length ≤ s.length := by
  unfold string_find at h
  split at h
  · rename_i hstart
    rcases find_in_suffix_spec delim (s.drop start) start with
      ⟨hnone, -⟩ | ⟨k, hsome, hk, hpre, -⟩
    · rw [hnone] at h; exact absurd h (by simp)
    · rw [hsome] at h
      injection h with h
      have hlen : delim.length ≤ ((s.drop start).drop k).length := hpre.length_le
      simp only [List.length_drop] at hlen hk
      subst h
      refine ⟨Nat.le_add_right _ _, ?_⟩
      omega
  · exact absurd h (by simp)

theorem string_find_empty_delim (s : Str) : string_find s [] 0 = some 0 := by
  cases s with
  | nil => simp [string_find, find_in_suffix]
  | cons c rest => simp [string_find, find_in_suffix]

theorem split_str_loop_empty_delim (s : Str) :
    ∀ (fuel : Nat) (result : List Str), split_str_loop s [] fuel 0 result = none := by
  intro fuel
  induction fuel with
  | zero => intro result; rfl
  | succ f ih =>
    intro result
    rw [split_str_loop, string_find_empty_delim]
    exact ih _

theorem split_str_start_bounds (s delim : Str) (hd : delim ≠ []) :
    ∀ (i start : Nat), split_str_start s delim i = some start →
      i ≤ start ∧ start ≤ s.length := by
  have hpos : 0 < delim.length := List.length_pos.mpr hd
  intro i
  induction i with
  | zero =>
    intro start h
    simp only [split_str_start, Option.some.injEq] at h
    omega
  | succ i ih =>
    intro start h
    rw [split_str_start] at h
    cases hi : split_str_start s delim i with
    | none => rw [hi] at h; exact absurd h (by simp)
    | some st =>
      rw [hi] at h
      simp only [] at h
      cases hf : string_find s delim st with
      | none => rw [hf] at h; exact absurd h (by simp)
      | some e =>
        rw [hf] at h
        simp only [Option.some.injEq] at h
        have h1 := ih st hi
        have h2 := string_find_some s delim st e hf
        omega

/-- C20: `split_str` terminates exactly when the delimiter is not empty.  On a
non-empty delimiter the loop leaves within `length + 1` iterations, the
position `start` being strictly larger at each new iteration; on the empty
delimiter `start` stays 0 at every iteration and the loop does not leave,
whatever the number of iterations. -/
theorem split_str_terminates_iff :
    (∀ s delim : Str, delim ≠ [] →
      (∀ fuel, s.length + 1 ≤ fuel → ∃ r, split_str fuel s delim = some r) ∧
      (∀ i start start', split_str_start s delim i = some start →
        split_str_start s delim (i + 1) = some start' → start < start') ∧
      split_str_start s delim (s.length + 1) = none) ∧
    (∀ (s : Str) (fuel : Nat), split_str fuel s [] = none) ∧
    (∀ (s : Str) (i : Nat), split_str_start s [] i = some 0) := by
  refine ⟨?_, ?_, ?_⟩
  · intro s delim hd
    have hpos : 0 < delim.length := List.length_pos.mpr hd
    refine ⟨?_, ?_, ?_⟩
    · intro fuel hfuel
      exact ⟨_, split_str_loop_spec s delim hd fuel 0 [] (Nat.zero_le _) (by omega)⟩
    · intro i start start' h1 h2
      rw [split_str_start, h1] at h2
      simp only [] at h2
      cases hf : string_find s delim start with
      | none => rw [hf] at h2; exact absurd h2 (by simp)
      | some e =>
        rw [hf] at h2
        simp only [Option.some.injEq] at h2
        have := string_find_some s delim start e hf
        omega
    · cases h : split_str_start s delim (s.length + 1) with
      | none => rfl
      | some start =>
        have := split_str_start_bounds s delim hd _ _ h
        omega
  · intro s fuel
    exact split_str_loop_empty_delim s fuel []
  · intro s i
    induction i with
    | zero => rfl
    | succ i ih =>
      rw [split_str_start, ih]
      simp only []
      rw [string_find_empty_delim]
      rfl

/-! ### The frame of an insertion -/

theorem final_chain_getElem? (cs : List UnsignedInt) :
    ∀ (m i : Nat) (c : UnsignedInt), cs[i]? = some c →
      (final_chain m cs)[i]? = some ⟨TropicalWeight.infinity, [word_arc c (m + i)]⟩ := by
  induction cs with
  | nil => intro m i c hc; simp at hc
  | cons c' cs ih =>
    intro m i c hc
    cases i with
    | zero =>
      simp only [List.getElem?_cons_zero, Option.some.injEq] at hc
      subst hc
      simp [final_chain]
    | succ i =>
      have := ih (m + 1) i c (by simpa using hc)
      rw [final_chain, List.getElem?_cons_succ, this]
      congr 4
      omega

theorem final_chain_last (cs : List UnsignedInt) :
    ∀ m : Nat, (final_chain m cs)[cs.length]? = some ⟨TropicalWeight.One, []⟩ := by
  induction cs with
  | nil => intro m; rfl
  | cons c cs ih => intro m; simpa [final_chain] using ih (m + 1)

theorem chain_path_nextstate (cs : List UnsignedInt) :
    ∀ (m : Nat), ∀ b ∈ chain_path m cs, (m : Int) ≤ b.nextstate := by
  induction cs with
  | nil => intro m b hb; exact absurd hb (List.not_mem_nil _)
  | cons c cs ih =>
    intro m b hb
    simp only [chain_path, List.mem_cons] at hb
    rcases hb with rfl | hb
    · simp [word_arc]
    · have := ih (m + 1) b hb
      omega

theorem path_end_arcs (d : StdVectorFst) :
    ∀ (p : List Arc) (s t : Int), d.path_end s p = some t →
      ∀ a ∈ p, ∃ st ∈ d.states, a ∈ st.arcs := by
  intro p
  induction p with
  | nil => intro s t _ a ha; exact absurd ha (List.not_mem_nil _)
  | cons x p ih =>
    intro s t h a ha
    rw [StdVectorFst.path_end] at h
    split at h
    · rename_i hx
      rcases List.mem_cons.mp ha with rfl | ha
      · exact arcs_of_mem_states d s _ hx
      · exact ih _ t h a ha
    · exact absurd h (by simp)

/-- The closed form of an insertion has the frame `appends_chain`. -/
theorem inserted_appends_chain (d : StdVectorFst) (c : UnsignedInt) (cs : List UnsignedInt)
    (hd : IsLexicon d) : appends_chain d (c :: cs) (inserted d c cs) := by
  obtain ⟨st0, hst0⟩ : ∃ st0, d.states[0]? = some st0 := by
    obtain ⟨b, L, hL⟩ := List.exists_cons_of_ne_nil hd.2.1
    exact ⟨b, by rw [hL]; simp⟩
  have hset : ∀ x : FstState, (d.states.set 0 x).length = d.states.length := by simp
  refine ⟨rfl, ?_, ?_, ⟨st0, c, hst0, by simp, ?_⟩, ?_, ?_⟩
  · rw [inserted_states_length]; simp
  · intro s h1 h2
    have := inserted_state?_old d c cs (s : Int) (by omega) (by omega)
    rwa [state?_natCast, state?_natCast] at this
  · exact inserted_state?_zero d c cs st0 hst0
  · intro i c' hi hc
    show (d.states.set 0 _ ++ final_chain (d.states.length + 1) cs)[d.states.length + i]? = _
    rw [List.getElem?_append_right (by rw [hset]; omega), hset, Nat.add_sub_cancel_left,
      final_chain_getElem? cs (d.states.length + 1) i c' (by simpa using hc)]
    simp only [word_arc]
    congr 5
    omega
  · show (d.states.set 0 _ ++ final_chain (d.states.length + 1) cs)[
      d.states.length + (c :: cs).length - 1]? = _
    rw [List.getElem?_append_right (by rw [hset]; simp), hset]
    have : d.states.length + (c :: cs).length - 1 - d.states.length = cs.length := by
      simp only [List.length_cons]; omega
    rw [this, final_chain_last]

/-- The chain of an insertion is apart from the paths there were. -/
theorem inserted_chain_apart (d : StdVectorFst) (c : UnsignedInt) (cs : List UnsignedInt)
    (hd : IsLexicon d) : chain_apart d (c :: cs) (inserted d c cs) := by
  refine ⟨?_, chain_path_nextstate (c :: cs) d.states.length, ?_⟩
  · intro p t hp a ha
    obtain ⟨st, hst, hast⟩ := path_end_arcs d p _ t hp a ha
    exact hd.2.2 st hst a hast
  · have hs : (inserted d c cs).start = 0 := hd.1
    simp only [StdVectorFst.accepting_path, hs, Bool.and_eq_true, decide_eq_true_eq]
    exact ⟨(inserted_accepting_from_start d c cs hd _).mpr (Or.inr rfl),
      chain_path_ilabel _ _⟩

/-- C18: on an automaton built by calls of `add_word_to_fst` (at least one)
from the automaton without states, one more call on a non-empty word of `k`
tokens returns, keeps the existing states with their final weights and arcs,
and appends `k` states and `k` arcs that form a chain from the start state,
arc `i` with token `i` on both labels and weight zero, the last new state final
with weight `One`; the chain meets the earlier paths in the start state only.
For "hi" then "ho" in byte mode: two paths from the start state to a final
state, through states 1, 2 and through states 3, 4, whose labels first differ
at the second token. -/
theorem add_word_to_fst_appends_chain (ws : List (List UnsignedInt)) (d : StdVectorFst)
    (w : List UnsignedInt) (hws : ws ≠ [])
    (hd : add_words_to_fst ws StdVectorFst.empty = .ok d) (hw : w ≠ []) :
    (∃ d', add_word_to_fst w d = .ok d' ∧ appends_chain d w d' ∧ chain_apart d w d') ∧
    (∃ d₁, add_word_to_dictionary [104, 105] byte_char_map true 0 StdVectorFst.empty
        = .ok (true, d₁) ∧
      add_word_to_dictionary [104, 111] byte_char_map true 0 d₁
        = .ok (true, ⟨0, [⟨.infinity, [⟨104, 104, .value 0, 1⟩, ⟨104, 104, .value 0, 3⟩]⟩,
            ⟨.infinity, [⟨105, 105, .value 0, 2⟩]⟩, ⟨.One, []⟩,
            ⟨.infinity, [⟨111, 111, .value 0, 4⟩]⟩, ⟨.One, []⟩]⟩) ∧
      (StdVectorFst.mk 0 [⟨.infinity, [⟨104, 104, .value 0, 1⟩, ⟨104, 104, .value 0, 3⟩]⟩,
            ⟨.infinity, [⟨105, 105, .value 0, 2⟩]⟩, ⟨.One, []⟩,
            ⟨.infinity, [⟨111, 111, .value 0, 4⟩]⟩, ⟨.One, []⟩]).accepting_path
          [⟨104, 104, .value 0, 1⟩, ⟨105, 105, .value 0, 2⟩] [104, 105] = true ∧
      (StdVectorFst.mk 0 [⟨.infinity, [⟨104, 104, .value 0, 1⟩, ⟨104, 104, .value 0, 3⟩]⟩,
            ⟨.infinity, [⟨105, 105, .value 0, 2⟩]⟩, ⟨.One, []⟩,
            ⟨.infinity, [⟨111, 111, .value 0, 4⟩]⟩, ⟨.One, []⟩]).accepting_path
          [⟨104, 104, .value 0, 3⟩, ⟨111, 111, .value 0, 4⟩] [104, 111] = true) := by
  refine ⟨?_, ⟨⟨0, [⟨.infinity, [⟨104, 104, .value 0, 1⟩]⟩,
    ⟨.infinity, [⟨105, 105, .value 0, 2⟩]⟩, ⟨.One, []⟩]⟩, rfl, rfl, by decide, by decide⟩⟩
  have hlex : IsLexicon d :=
    isLexicon_of_add_words_to_fst_ok ws _ d (Or.inl rfl) hd (Or.inl hws)
  obtain ⟨c, cs, rfl⟩ := List.exists_cons_of_ne_nil hw
  exact ⟨inserted d c cs, add_word_to_fst_cons d c cs hlex.1 hlex.2.1,
    inserted_appends_chain d c cs hlex, inserted_chain_apart d c cs hlex⟩

theorem add_word_to_fst_appends_chain_witness :
    (([[104, 105]] : List (List UnsignedInt)) ≠ []) ∧
    add_words_to_fst [[104, 105]] StdVectorFst.empty
      = .ok ⟨0, [⟨.infinity, [⟨104, 104, .value 0, 1⟩]⟩,
          ⟨.infinity, [⟨105, 105, .value 0, 2⟩]⟩, ⟨.One, []⟩]⟩ ∧
    (([104, 111] : List UnsignedInt) ≠ []) ∧
    ∃ d', add_word_to_fst [104, 111]
        ⟨0, [⟨.infinity, [⟨104, 104, .value 0, 1⟩]⟩,
          ⟨.infinity, [⟨105, 105, .value 0, 2⟩]⟩, ⟨.One, []⟩]⟩ = .ok d' ∧
      appends_chain ⟨0, [⟨.infinity, [⟨104, 104, .value 0, 1⟩]⟩,
          ⟨.infinity, [⟨105, 105, .value 0, 2⟩]⟩, ⟨.One, []⟩]⟩ [104, 111] d' ∧
      chain_apart ⟨0, [⟨.infinity, [⟨104, 104, .value 0, 1⟩]⟩,
          ⟨.infinity, [⟨105, 105, .value 0, 2⟩]⟩, ⟨.One, []⟩]⟩ [104, 111] d' :=
  ⟨by decide, rfl, by decide,
    (add_word_to_fst_appends_chain [[104, 105]]
      ⟨0, [⟨.infinity, [⟨104, 104, .value 0, 1⟩]⟩,
        ⟨.infinity, [⟨105, 105, .value 0, 2⟩]⟩, ⟨.One, []⟩]⟩ [104, 111]
      (by decide) rfl (by decide)).1⟩

end CtcDecode
